import Mathlib

/-!
Verification of the AI-Effect workflow orchestrator core against its
natural-language specification.

The Lean definitions below are a shallow embedding of the Python source:

* `models/data_reference.py` — the `DataReference` pydantic model with its
  validating constructor and JSON (de)serialization;
* `models/state.py` — `WorkflowState` / `TaskState` and their status enums;
* `services/state_store.py` — `RedisStateStore` operations over an explicit
  functional model of the Redis keyspace;
* `services/task_queue.py` — `RedisTaskQueue` enqueue/dequeue;
* `services/workflow_engine.py` — `WorkflowEngine` initialize/start/claim/
  complete/fail;
* `services/blueprint_parser.py` — connection validation, graph building and
  DFS cycle detection.

Machine-level details are modelled as follows: wall-clock timestamps become a
monotone `Nat` counter stored in the state; Redis sets become duplicate-free
lists (`sadd` appends when absent); the Redis string keyspace becomes typed
association lists; Python exceptions become an `Except` layered over the
store so that writes performed before a raise persist.  The sha256 digest
used for task ids is an external stdlib call and is modelled as an abstract
`digest` parameter; theorems that need collision-freedom state it as a
hypothesis on the node keys actually present.
-/

namespace Orchestrator

/-! ## JSON values

Free-form JSON values, used for the `metadata: dict[str, Any]` field of
`DataReference` and for its serialized form.  Mutual inductives are used so
that decidable equality can be derived. -/
mutual
inductive Json where
  | null : Json
  | bool (b : Bool) : Json
  | num (n : Int) : Json
  | str (s : String) : Json
  | arr (elems : JsonList) : Json
  | obj (fields : JsonObj) : Json
deriving DecidableEq, Repr

inductive JsonList where
  | nil : JsonList
  | cons (hd : Json) (tl : JsonList) : JsonList
deriving DecidableEq, Repr

inductive JsonObj where
  | nil : JsonObj
  | cons (key : String) (val : Json) (tl : JsonObj) : JsonObj
deriving DecidableEq, Repr
end

/-- Lookup of a field in a JSON object (first occurrence wins). -/
def JsonObj.lookup : JsonObj → String → Option Json
  | .nil, _ => none
  | .cons k v tl, key => if k = key then some v else tl.lookup key

/-! ## DataReference (`models/data_reference.py`) -/
/-- `Protocol` enum from `models/data_reference.py`. -/
inductive Protocol where
  | s3 | http | https | nfs | grpc | mqtt | villas | inline | file
deriving DecidableEq, Repr

/-- String value of a `Protocol` member, as serialized by pydantic. -/
def Protocol.toStr : Protocol → String
  | .s3 => "s3"
  | .http => "http"
  | .https => "https"
  | .nfs => "nfs"
  | .grpc => "grpc"
  | .mqtt => "mqtt"
  | .villas => "villas"
  | .inline => "inline"
  | .file => "file"

/-- Parse a `Protocol` from its string value. -/
def Protocol.ofStr : String → Option Protocol
  | "s3" => some .s3
  | "http" => some .http
  | "https" => some .https
  | "nfs" => some .nfs
  | "grpc" => some .grpc
  | "mqtt" => some .mqtt
  | "villas" => some .villas
  | "inline" => some .inline
  | "file" => some .file
  | _ => none

/-- `Format` enum from `models/data_reference.py`. -/
inductive Format where
  | json | csv | parquet | protobuf | binary | xml
deriving DecidableEq, Repr

/-- String value of a `Format` member, as serialized by pydantic. -/
def Format.toStr : Format → String
  | .json => "json"
  | .csv => "csv"
  | .parquet => "parquet"
  | .protobuf => "protobuf"
  | .binary => "binary"
  | .xml => "xml"

/-- Parse a `Format` from its string value. -/
def Format.ofStr : String → Option Format
  | "json" => some .json
  | "csv" => some .csv
  | "parquet" => some .parquet
  | "protobuf" => some .protobuf
  | "binary" => some .binary
  | "xml" => some .xml
  | _ => none

/-- Whitespace characters stripped by Python `str.strip()`. -/
def isPySpace (c : Char) : Bool :=
  c = ' ' || c = '\t' || c = '\n' || c = '\r' || c = '\x0b' || c = '\x0c'

/-- Test whether the second list is an initial segment of the first,
modelling Python `str.startswith`. -/
def listStartsWith : List Char → List Char → Bool
  | _, [] => true
  | [], _ :: _ => false
  | c :: cs, p :: ps => c = p && listStartsWith cs ps

/-- Model of Python `str.startswith` on strings. -/
def pyStartsWith (s pat : String) : Bool :=
  listStartsWith s.toList pat.toList

/-- Character of the standard base64 alphabet (excluding padding). -/
def isBase64Char (c : Char) : Bool :=
  c.isAlphanum || c = '+' || c = '/'

/-- Model of `base64.b64decode(s, validate=True)` succeeding: every
non-padding character is in the standard alphabet, padding is at most two
trailing `=`, and the total length is a multiple of four. -/
def isValidBase64 (s : String) : Bool :=
  let cs := s.toList
  let pad := (cs.reverse.takeWhile (· = '=')).length
  let dat := cs.take (cs.length - pad)
  decide (pad ≤ 2) && dat.all isBase64Char && cs.length % 4 = 0

/-- `DataReference` record: the fields of the frozen pydantic model.
`size_bytes` is a Python int, hence `Int`; `metadata` is a free-form JSON
object. -/
structure DataReference where
  protocol : Protocol
  uri : String
  format : Format
  schema_uri : Option String := none
  size_bytes : Option Int := none
  checksum : Option String := none
  metadata : JsonObj := .nil
deriving DecidableEq, Repr

/-- `validate_uri_not_empty`: rejects an empty or all-whitespace uri
(`not v or not v.strip()`). -/
def uriEmpty (uri : String) : Bool :=
  uri.toList.all isPySpace

/-- `validate_size_bytes`: a provided size must be non-negative. -/
def sizeBytesInvalid (size_bytes : Option Int) : Bool :=
  match size_bytes with
  | none => false
  | some n => n < 0

/-- `validate_checksum`: a provided checksum must contain `:` and both the
algorithm half (before the first `:`) and the value half must be non-empty,
mirroring `v.split(":", 1)`. -/
def checksumInvalid (checksum : Option String) : Bool :=
  match checksum with
  | none => false
  | some v =>
    let cs := v.toList
    if cs.any (· = ':') then
      let alg := cs.takeWhile (· ≠ ':')
      let val := (cs.dropWhile (· ≠ ':')).tail
      alg.isEmpty || val.isEmpty
    else true

/-- `validate_uri_for_protocol`: protocol-specific uri syntax checks. -/
def uriProtocolInvalid (protocol : Protocol) (uri : String) : Bool :=
  match protocol with
  | .s3 => !pyStartsWith uri "s3://"
  | .http => !pyStartsWith uri "http://"
  | .https => !pyStartsWith uri "https://"
  | .nfs => !uri.toList.any (· = ':')
  | .mqtt => !(pyStartsWith uri "mqtt://" || pyStartsWith uri "mqtts://")
  | .inline => !isValidBase64 uri
  | _ => false

/-- Validating constructor of `DataReference`: the pydantic field and model
validators run in order and the first failure is reported. -/
def DataReference.make (protocol : Protocol) (uri : String) (format : Format)
    (schema_uri : Option String) (size_bytes : Option Int)
    (checksum : Option String) (metadata : JsonObj) :
    Except String DataReference :=
  if uriEmpty uri then .error "uri must not be empty"
  else if sizeBytesInvalid size_bytes then .error "size_bytes must be non-negative"
  else if checksumInvalid checksum then .error "checksum is invalid"
  else if uriProtocolInvalid protocol uri then .error "uri does not match protocol"
  else .ok ⟨protocol, uri, format, schema_uri, size_bytes, checksum, metadata⟩

/-- Serialization of an optional string field (`null` when absent). -/
def jsonOfOptStr : Option String → Json
  | none => .null
  | some s => .str s

/-- Serialization of an optional integer field (`null` when absent). -/
def jsonOfOptInt : Option Int → Json
  | none => .null
  | some n => .num n

/-- `model_dump_json`: the JSON object a `DataReference` serializes to. -/
def DataReference.serialize (r : DataReference) : Json :=
  .obj (.cons "protocol" (.str r.protocol.toStr)
    (.cons "uri" (.str r.uri)
      (.cons "format" (.str r.format.toStr)
        (.cons "schema_uri" (jsonOfOptStr r.schema_uri)
          (.cons "size_bytes" (jsonOfOptInt r.size_bytes)
            (.cons "checksum" (jsonOfOptStr r.checksum)
              (.cons "metadata" (.obj r.metadata) .nil)))))))

/-- Decode an optional string field (`null` or absent ⇒ `none`). -/
def decodeOptStr : Option Json → Except String (Option String)
  | none => .ok none
  | some .null => .ok none
  | some (.str s) => .ok (some s)
  | some _ => .error "expected string or null"

/-- Decode an optional integer field (`null` or absent ⇒ `none`). -/
def decodeOptInt : Option Json → Except String (Option Int)
  | none => .ok none
  | some .null => .ok none
  | some (.num n) => .ok (some n)
  | some _ => .error "expected integer or null"

/-- `model_validate_json`: decode the serialized fields and re-run the
validating constructor. -/
def DataReference.parse (j : Json) : Except String DataReference :=
  match j with
  | .obj fields => do
    let protocol ← match fields.lookup "protocol" with
      | some (.str s) =>
        match Protocol.ofStr s with
        | some p => Except.ok p
        | none => Except.error "unknown protocol"
      | _ => Except.error "missing protocol"
    let uri ← match fields.lookup "uri" with
      | some (.str s) => Except.ok s
      | _ => Except.error "missing uri"
    let format ← match fields.lookup "format" with
      | some (.str s) =>
        match Format.ofStr s with
        | some f => Except.ok f
        | none => Except.error "unknown format"
      | _ => Except.error "missing format"
    let schema_uri ← decodeOptStr (fields.lookup "schema_uri")
    let size_bytes ← decodeOptInt (fields.lookup "size_bytes")
    let checksum ← decodeOptStr (fields.lookup "checksum")
    let metadata ← match fields.lookup "metadata" with
      | none => Except.ok JsonObj.nil
      | some (.obj o) => Except.ok o
      | some _ => Except.error "metadata must be an object"
    DataReference.make protocol uri format schema_uri size_bytes checksum metadata
  | _ => .error "expected object"

/-! ## Workflow and task state (`models/state.py`) -/
/-- `WorkflowStatus` enum. -/
inductive WorkflowStatus where
  | pending | running | completed | failed
deriving DecidableEq, Repr

/-- `TaskStatus` enum. -/
inductive TaskStatus where
  | pending | running | completed | failed
deriving DecidableEq, Repr

/-- `WorkflowState` pydantic model.  Timestamps are modelled by a monotone
`Nat` counter (`Store.clock`). -/
structure WorkflowState where
  workflow_id : String
  status : WorkflowStatus
  created_at : Nat
  updated_at : Nat
  error : Option String := none
deriving DecidableEq, Repr

/-- `TaskState` pydantic model. -/
structure TaskState where
  task_id : String
  workflow_id : String
  node_key : String
  status : TaskStatus
  created_at : Nat
  updated_at : Nat
  input_refs : List DataReference := []
  output_refs : List DataReference := []
  error : Option String := none
deriving DecidableEq, Repr

/-! ## The Redis keyspace model

Typed views of the keys used by the store, queue and engine:
`workflow:<id>`, `task:<wf>:<task>`, `workflow:<wf>:tasks`, `deps:<wf>:<task>`,
`dependents:<wf>:<task>`, `graph:<wf>`, `queue:<wf>`, `endpoints:<wf>`.
Redis sets are duplicate-free lists (`sadd` appends when absent), hashes are
association lists in field-insertion order, queues are lists with `lpush` at
the head and `brpop` at the tail.  A missing set/hash/list key is the empty
collection, as in Redis.  `enqueueLog` is ghost instrumentation: it records,
for every `enqueue_task` call, the task's remaining-dependency count and
persisted status at the moment of the enqueue, and affects nothing. -/
/-- Ghost record of one `enqueue_task` call. -/
structure EnqEvent where
  workflow_id : String
  task_id : String
  remaining_deps : Nat
  task_status : Option TaskStatus
deriving DecidableEq, Repr

/-- The persistent state shared by all components. -/
structure Store where
  clock : Nat
  workflows : String → Option WorkflowState
  tasks : String × String → Option TaskState
  taskIndex : String → List String
  deps : String × String → List String
  dependents : String × String → List String
  graphMap : String → List (String × String)
  queue : String → List String
  endpoints : String → List (String × String)
  enqueueLog : List EnqEvent

/-- The empty keyspace. -/
def emptyStore : Store :=
  ⟨0, fun _ => none, fun _ => none, fun _ => [], fun _ => [], fun _ => [],
    fun _ => [], fun _ => [], fun _ => [], []⟩

/-- `SADD`: append a member to a set unless already present. -/
def saddL (l : List String) (x : String) : List String :=
  if x ∈ l then l else l ++ [x]

/-- `SREM`: remove a member from a set. -/
def sremL (l : List String) (x : String) : List String :=
  l.filter (· ≠ x)

/-- `HSET`: update a field in place, or append a new field. -/
def hsetL (l : List (String × String)) (f v : String) : List (String × String) :=
  match l with
  | [] => [(f, v)]
  | (f', v') :: tl => if f' = f then (f, v) :: tl else (f', v') :: hsetL tl f v

/-- `HVALS`: the hash's values in field order. -/
def hvalsL (l : List (String × String)) : List String :=
  l.map (·.2)

/-! ## Errors and the effect monad

Python exceptions over the external store: a raise aborts the rest of the
computation but keeps every write performed before it. -/
/-- Typed errors raised by the store and engine. -/
inductive Err where
  | valueError (msg : String)
  | workflowNotFound (workflow_id : String)
  | taskNotFound (workflow_id task_id : String)
deriving DecidableEq, Repr

/-- Stateful computation that may raise, preserving prior writes. -/
def M (α : Type) : Type := Store → Except Err α × Store

/-- Lift a value. -/
def M.pure' (a : α) : M α := fun s => (.ok a, s)

/-- Sequence two computations; an error short-circuits. -/
def M.bind' (m : M α) (f : α → M β) : M β := fun s =>
  match m s with
  | (.ok a, s') => f a s'
  | (.error e, s') => (.error e, s')

instance : Monad M where
  pure := M.pure'
  bind := M.bind'

/-- Raise an error. -/
def M.throw (e : Err) : M α := fun s => (.error e, s)

/-- Read the whole store. -/
def M.get : M Store := fun s => (.ok s, s)

/-- Apply an update to the store. -/
def M.modify (f : Store → Store) : M Unit := fun s => (.ok (), f s)

/-- Run, keeping only the final store (the caller swallowed the result or
the exception). -/
def M.exec (m : M α) (s : Store) : Store := (m s).2

/-- Run, keeping only the outcome. -/
def M.eval (m : M α) (s : Store) : Except Err α := (m s).1

/-- `_utc_now`: read the clock and advance it, so consecutive timestamps are
distinct and increasing. -/
def utcNow : M Nat := fun s => (.ok s.clock, {s with clock := s.clock + 1})

/-! ## RedisStateStore (`services/state_store.py`) -/
/-- `RedisStateStore.create_workflow`. -/
def create_workflow (workflow_id : String) : M WorkflowState := do
  if workflow_id = "" then M.throw (.valueError "workflow_id is required") else
  let s ← M.get
  if (s.workflows workflow_id).isSome then
    M.throw (.valueError "Workflow already exists") else
  let now ← utcNow
  let state : WorkflowState :=
    ⟨workflow_id, .pending, now, now, none⟩
  M.modify fun s =>
    {s with workflows := Function.update s.workflows workflow_id (some state)}
  pure state

/-- `RedisStateStore.get_workflow`. -/
def get_workflow (workflow_id : String) : M WorkflowState := do
  if workflow_id = "" then M.throw (.valueError "workflow_id is required") else
  let s ← M.get
  match s.workflows workflow_id with
  | none => M.throw (.workflowNotFound workflow_id)
  | some state => pure state

/-- `RedisStateStore.update_workflow_status` (`state_store.py:79-100`).
After the empty-id guard the body is `get_workflow` →
`model_copy(update={"status": status, "updated_at": now, "error": error})`
→ `set`: it never reads `state.status` (the source's only status
comparisons are the read-only `is_workflow_complete` and
`_all_tasks_completed`), so there is no terminal-state guard, and the
`model_copy` overwrites the stored error with the argument even when the
argument is `None`. -/
def update_workflow_status (workflow_id : String) (status : WorkflowStatus)
    (error : Option String := none) : M WorkflowState := do
  if workflow_id = "" then M.throw (.valueError "workflow_id is required") else
  let state ← get_workflow workflow_id
  let now ← utcNow
  let updated : WorkflowState :=
    {state with status := status, updated_at := now, error := error}
  M.modify fun s =>
    {s with workflows := Function.update s.workflows workflow_id (some updated)}
  pure updated

/-- `RedisStateStore.create_task`. -/
def create_task (workflow_id task_id node_key : String)
    (input_refs : Option (List DataReference) := none) : M TaskState := do
  if workflow_id = "" then M.throw (.valueError "workflow_id is required") else
  if task_id = "" then M.throw (.valueError "task_id is required") else
  if node_key = "" then M.throw (.valueError "node_key is required") else
  let _ ← get_workflow workflow_id
  let s ← M.get
  if (s.tasks (workflow_id, task_id)).isSome then
    M.throw (.valueError "Task already exists") else
  let now ← utcNow
  let state : TaskState :=
    ⟨task_id, workflow_id, node_key, .pending, now, now, input_refs.getD [], [], none⟩
  M.modify fun s =>
    {s with
      tasks := Function.update s.tasks (workflow_id, task_id) (some state),
      taskIndex :=
        Function.update s.taskIndex workflow_id (saddL (s.taskIndex workflow_id) task_id)}
  pure state

/-- `RedisStateStore.get_task`. -/
def get_task (workflow_id task_id : String) : M TaskState := do
  if workflow_id = "" then M.throw (.valueError "workflow_id is required") else
  if task_id = "" then M.throw (.valueError "task_id is required") else
  let s ← M.get
  match s.tasks (workflow_id, task_id) with
  | none => M.throw (.taskNotFound workflow_id task_id)
  | some state => pure state

/-- `RedisStateStore.update_task_status`: `output_refs` and `error` are set
only when the corresponding argument is provided. -/
def update_task_status (workflow_id task_id : String) (status : TaskStatus)
    (output_refs : Option (List DataReference) := none)
    (error : Option String := none) : M TaskState := do
  if workflow_id = "" then M.throw (.valueError "workflow_id is required") else
  if task_id = "" then M.throw (.valueError "task_id is required") else
  let state ← get_task workflow_id task_id
  let now ← utcNow
  let updated : TaskState :=
    {state with
      status := status,
      updated_at := now,
      output_refs := match output_refs with
        | some refs => refs
        | none => state.output_refs,
      error := match error with
        | some e => some e
        | none => state.error}
  M.modify fun s =>
    {s with tasks := Function.update s.tasks (workflow_id, task_id) (some updated)}
  pure updated

/-- Stable insertion of a task into a list sorted by `created_at`. -/
def insertByCreated (t : TaskState) : List TaskState → List TaskState
  | [] => [t]
  | h :: tl =>
    if h.created_at ≤ t.created_at then h :: insertByCreated t tl
    else t :: h :: tl

/-- `sorted(tasks, key=lambda t: t.created_at)`. -/
def sortByCreated : List TaskState → List TaskState
  | [] => []
  | h :: tl => insertByCreated h (sortByCreated tl)

/-- Fetch each indexed task in turn (`get_task` may raise). -/
def getTasksOf (workflow_id : String) : List String → M (List TaskState)
  | [] => pure []
  | id :: ids => do
    let t ← get_task workflow_id id
    let ts ← getTasksOf workflow_id ids
    pure (t :: ts)

/-- `RedisStateStore.get_workflow_tasks`: all indexed tasks, ordered by
creation time. -/
def get_workflow_tasks (workflow_id : String) : M (List TaskState) := do
  if workflow_id = "" then M.throw (.valueError "workflow_id is required") else
  let _ ← get_workflow workflow_id
  let s ← M.get
  let ts ← getTasksOf workflow_id (s.taskIndex workflow_id)
  pure (sortByCreated ts)

/-- Delete each listed task record. -/
def deleteTaskRecords (workflow_id : String) : List String → M Unit
  | [] => pure ()
  | id :: ids => do
    M.modify fun s =>
      {s with tasks := Function.update s.tasks (workflow_id, id) none}
    deleteTaskRecords workflow_id ids

/-- `RedisStateStore.delete_workflow`: deletes the task records, the task
index and the workflow record (and nothing else). -/
def delete_workflow (workflow_id : String) : M Unit := do
  if workflow_id = "" then M.throw (.valueError "workflow_id is required") else
  let s ← M.get
  deleteTaskRecords workflow_id (s.taskIndex workflow_id)
  M.modify fun s =>
    {s with taskIndex := Function.update s.taskIndex workflow_id []}
  M.modify fun s =>
    {s with workflows := Function.update s.workflows workflow_id none}

/-! ## RedisTaskQueue (`services/task_queue.py`) -/
/-- `RedisTaskQueue.enqueue_task` (`LPUSH`).  Ghost instrumentation records
the task's remaining-dependency count and persisted status at this moment. -/
def enqueue_task (workflow_id task_id : String) : M Unit := do
  if workflow_id = "" then M.throw (.valueError "workflow_id is required") else
  if task_id = "" then M.throw (.valueError "task_id is required") else
  M.modify fun s =>
    {s with
      queue := Function.update s.queue workflow_id (task_id :: s.queue workflow_id),
      enqueueLog := s.enqueueLog ++
        [⟨workflow_id, task_id, (s.deps (workflow_id, task_id)).length,
          (s.tasks (workflow_id, task_id)).map (·.status)⟩]}

/-- `RedisTaskQueue.dequeue_task` (`BRPOP`), with blocking elided: the pop
either returns the queue's tail element or reports an empty queue. -/
def dequeue_task (workflow_id : String) : M (Option String) := do
  if workflow_id = "" then M.throw (.valueError "workflow_id is required") else
  let s ← M.get
  match (s.queue workflow_id).getLast? with
  | none => pure none
  | some task_id => do
    M.modify fun s =>
      {s with queue :=
        Function.update s.queue workflow_id ((s.queue workflow_id).dropLast)}
    pure (some task_id)

/-- `RedisTaskQueue.clear_queue`. -/
def clear_queue (workflow_id : String) : M Unit := do
  if workflow_id = "" then M.throw (.valueError "workflow_id is required") else
  M.modify fun s =>
    {s with queue := Function.update s.queue workflow_id []}

/-! ## Execution graph (`models/graph.py`)

Only what the engine and the cycle detector read of a `GraphNode` is kept:
its key and the keys of its forward and reverse neighbours (in the source
these are object references whose identity is their `key`). -/
/-- A node of the execution graph, by keys. -/
structure GraphNode where
  key : String
  next_nodes : List String := []
  dependencies : List String := []
deriving DecidableEq, Repr

/-- `ExecutionGraph`: `all_nodes` is the insertion-ordered dict
`key → GraphNode`; `start_nodes` lists the keys of nodes with no
dependencies. -/
structure ExecutionGraph where
  start_nodes : List String := []
  all_nodes : List (String × GraphNode) := []
deriving DecidableEq, Repr

/-- Dict lookup in `all_nodes`. -/
def ExecutionGraph.node? (g : ExecutionGraph) (key : String) : Option GraphNode :=
  match g.all_nodes.find? (fun p => p.1 = key) with
  | some p => some p.2
  | none => none

/-! ## WorkflowEngine (`services/workflow_engine.py`)

The sha256 digest of `_task_id_from_node_key` is a stdlib call; it enters
the model as the abstract parameter `digest`. -/
/-- `WorkflowEngine._task_id_from_node_key`:
`"task_" + sha256(node_key).hexdigest()[:8]`. -/
def taskIdFromNodeKey (digest : String → String) (node_key : String) : String :=
  "task_" ++ ((digest node_key).toList.take 8).asString

/-- First loop of `initialize_workflow`: create one task per graph node and
record `node_key → task_id` in the per-workflow graph hash. -/
def createTasksLoop (digest : String → String) (workflow_id : String) :
    List (String × GraphNode) → M Unit
  | [] => pure ()
  | (node_key, _) :: rest => do
    let task_id := taskIdFromNodeKey digest node_key
    let _ ← create_task workflow_id task_id node_key
    M.modify fun s =>
      {s with
        graphMap :=
          Function.update s.graphMap workflow_id
            (hsetL (s.graphMap workflow_id) node_key task_id)}
    createTasksLoop digest workflow_id rest

/-- `SADD` each dependency's task id into `deps:<wf>:<task>`. -/
def addDepsLoop (digest : String → String) (workflow_id task_id : String) :
    List String → M Unit
  | [] => pure ()
  | dep :: rest => do
    let dep_task_id := taskIdFromNodeKey digest dep
    M.modify fun s =>
      {s with
        deps :=
          Function.update s.deps (workflow_id, task_id)
            (saddL (s.deps (workflow_id, task_id)) dep_task_id)}
    addDepsLoop digest workflow_id task_id rest

/-- `SADD` each dependent's task id into `dependents:<wf>:<task>`. -/
def addDependentsLoop (digest : String → String) (workflow_id task_id : String) :
    List String → M Unit
  | [] => pure ()
  | nxt :: rest => do
    let next_task_id := taskIdFromNodeKey digest nxt
    M.modify fun s =>
      {s with
        dependents :=
          Function.update s.dependents (workflow_id, task_id)
            (saddL (s.dependents (workflow_id, task_id)) next_task_id)}
    addDependentsLoop digest workflow_id task_id rest

/-- Second loop of `initialize_workflow`: record the dependency sets of each
node. -/
def setupDepsLoop (digest : String → String) (workflow_id : String) :
    List (String × GraphNode) → M Unit
  | [] => pure ()
  | (node_key, node) :: rest => do
    let task_id := taskIdFromNodeKey digest node_key
    addDepsLoop digest workflow_id task_id node.dependencies
    addDependentsLoop digest workflow_id task_id node.next_nodes
    setupDepsLoop digest workflow_id rest

/-- `WorkflowEngine.initialize_workflow`. -/
def initialize_workflow (digest : String → String) (workflow_id : String)
    (graph : ExecutionGraph) : M WorkflowState := do
  if workflow_id = "" then M.throw (.valueError "workflow_id is required") else
  if graph.all_nodes = [] then
    M.throw (.valueError "graph must have at least one node") else
  let workflow ← create_workflow workflow_id
  createTasksLoop digest workflow_id graph.all_nodes
  setupDepsLoop digest workflow_id graph.all_nodes
  pure workflow

/-- Loop of `start_workflow`: enqueue every task whose dependency set is
empty. -/
def enqueueRootsLoop (workflow_id : String) : List String → M Unit
  | [] => pure ()
  | task_id :: rest => do
    let s ← M.get
    if (s.deps (workflow_id, task_id)).length = 0 then
      enqueue_task workflow_id task_id
    else pure ()
    enqueueRootsLoop workflow_id rest

/-- `WorkflowEngine.start_workflow` as written in
`services/workflow_engine.py`: move the workflow to `running` and enqueue
the tasks with no dependencies.  This variant takes no initial inputs. -/
def start_workflow (workflow_id : String) : M Unit := do
  if workflow_id = "" then M.throw (.valueError "workflow_id is required") else
  let _ ← update_workflow_status workflow_id .running
  let s ← M.get
  enqueueRootsLoop workflow_id (hvalsL (s.graphMap workflow_id))

/-- Loop of the spec's two-argument `start`: for every task with no
remaining dependencies, attach the initial inputs (when given) as its
`input_refs` and enqueue it. -/
def startRootsWithInputsLoop (workflow_id : String)
    (initial_inputs : Option (List DataReference)) : List String → M Unit
  | [] => pure ()
  | task_id :: rest => do
    let s ← M.get
    if (s.deps (workflow_id, task_id)).length = 0 then do
      match initial_inputs with
      | some refs => do
        let task ← get_task workflow_id task_id
        let updated : TaskState := {task with input_refs := refs}
        M.modify fun s =>
          {s with tasks := Function.update s.tasks (workflow_id, task_id) (some updated)}
      | none => pure ()
      enqueue_task workflow_id task_id
    else pure ()
    startRootsWithInputsLoop workflow_id initial_inputs rest

/-- Modelled from the spec: the two-argument
`start_workflow(workflow_id, initial_inputs)` required by §4.4/§4.7 and
called by `api/app.py`; its definition is not in the source tree (the
in-tree `start_workflow` is the divergent no-inputs shape flagged in §9).
Per the spec it moves the workflow to `running`, attaches `initial_inputs`
as the `input_refs` of every root task (tasks with no deps), and enqueues
every root task. -/
def start_workflow_with_inputs (workflow_id : String)
    (initial_inputs : Option (List DataReference)) : M Unit := do
  if workflow_id = "" then M.throw (.valueError "workflow_id is required") else
  let _ ← update_workflow_status workflow_id .running
  let s ← M.get
  startRootsWithInputsLoop workflow_id initial_inputs
    (hvalsL (s.graphMap workflow_id))

/-- `WorkflowEngine.claim_task`. -/
def claim_task (workflow_id : String) : M (Option TaskState) := do
  if workflow_id = "" then M.throw (.valueError "workflow_id is required") else
  let popped ← dequeue_task workflow_id
  match popped with
  | none => pure none
  | some task_id => do
    let t ← update_task_status workflow_id task_id .running
    pure (some t)

/-- `WorkflowEngine._append_input_refs`: extend a task's persisted
`input_refs`, leaving every other field (including `updated_at`) alone. -/
def appendInputRefs (workflow_id task_id : String)
    (refs : List DataReference) : M Unit := do
  let task ← get_task workflow_id task_id
  let updated : TaskState := {task with input_refs := task.input_refs ++ refs}
  M.modify fun s =>
    {s with tasks := Function.update s.tasks (workflow_id, task_id) (some updated)}

/-- `WorkflowEngine._all_tasks_completed`. -/
def allTasksCompleted (workflow_id : String) : M Bool := do
  let tasks ← get_workflow_tasks workflow_id
  pure (tasks.all (fun t => t.status = .completed))

/-- Truthiness of the `output_refs` argument (`if output_refs:`): `None`
and the empty list are both falsy. -/
def outputRefsTruthy : Option (List DataReference) → Bool
  | some (_ :: _) => true
  | _ => false

/-- Per-dependent body of `complete_task`: pass the finished task's outputs
on, remove it from the dependent's dependency set, and enqueue the
dependent once no dependencies remain. -/
def processDependentsLoop (workflow_id task_id : String)
    (output_refs : Option (List DataReference)) : List String → M Unit
  | [] => pure ()
  | dep_id :: rest => do
    if outputRefsTruthy output_refs then
      appendInputRefs workflow_id dep_id (output_refs.getD [])
    else pure ()
    M.modify fun s =>
      {s with
        deps :=
          Function.update s.deps (workflow_id, dep_id)
            (sremL (s.deps (workflow_id, dep_id)) task_id)}
    let s ← M.get
    if (s.deps (workflow_id, dep_id)).length = 0 then
      enqueue_task workflow_id dep_id
    else pure ()
    processDependentsLoop workflow_id task_id output_refs rest

/-- `WorkflowEngine.complete_task`. -/
def complete_task (workflow_id task_id : String)
    (output_refs : Option (List DataReference) := none) : M TaskState := do
  if workflow_id = "" then M.throw (.valueError "workflow_id is required") else
  if task_id = "" then M.throw (.valueError "task_id is required") else
  let task ← update_task_status workflow_id task_id .completed output_refs
  let s ← M.get
  processDependentsLoop workflow_id task_id output_refs
    (s.dependents (workflow_id, task_id))
  let allDone ← allTasksCompleted workflow_id
  if allDone then do
    let _ ← update_workflow_status workflow_id .completed
    pure task
  else pure task

/-- `WorkflowEngine.fail_task`. -/
def fail_task (workflow_id task_id error : String) : M TaskState := do
  if workflow_id = "" then M.throw (.valueError "workflow_id is required") else
  if task_id = "" then M.throw (.valueError "task_id is required") else
  if error = "" then M.throw (.valueError "error is required") else
  let task ← update_task_status workflow_id task_id .failed none (some error)
  let _ ← update_workflow_status workflow_id .failed
    (some ("Task " ++ task_id ++ " failed: " ++ error))
  pure task

/-- `WorkflowEngine.get_workflow_status`. -/
def get_workflow_status (workflow_id : String) : M WorkflowState := do
  if workflow_id = "" then M.throw (.valueError "workflow_id is required") else
  get_workflow workflow_id

/-- `WorkflowEngine.is_workflow_complete`. -/
def is_workflow_complete (workflow_id : String) : M Bool := do
  if workflow_id = "" then M.throw (.valueError "workflow_id is required") else
  let state ← get_workflow workflow_id
  pure (state.status = .completed || state.status = .failed)

/-- Decidable equality of outcomes, for evaluating concrete runs. -/
instance [DecidableEq ε] [DecidableEq α] : DecidableEq (Except ε α) := fun a b =>
  match a, b with
  | .ok x, .ok y =>
    if h : x = y then .isTrue (by rw [h]) else .isFalse (by simp [h])
  | .error x, .error y =>
    if h : x = y then .isTrue (by rw [h]) else .isFalse (by simp [h])
  | .ok _, .error _ => .isFalse (by simp)
  | .error _, .ok _ => .isFalse (by simp)

/-! ## C2: terminal workflow status -/
/-- The observable facts that keep a failed workflow failed: the workflow
record is `failed` and a `failed` task sits in its task index. -/
def FailedTaskInv (wf tid : String) (s : Store) : Prop :=
  (∃ w, s.workflows wf = some w ∧ w.status = .failed) ∧
  (∃ t, s.tasks (wf, tid) = some t ∧ t.status = .failed) ∧
  tid ∈ s.taskIndex wf

/-- Fold a list of `complete_task` calls over the store, keeping the store
of each call whether it raised or returned. -/
def completeSteps : List (String × String × Option (List DataReference)) → Store → Store
  | [], s => s
  | (wf', tid', o) :: rest, s =>
    completeSteps rest ((complete_task wf' tid' o) s).2

/-- Concrete reference for the C4 witness. -/
def c4Ref : DataReference := ⟨.s3, "s3://b/out.json", .json, none, none, none, .nil⟩

/-- Concrete two-task store for the C4 witness: `task_b` depends on
`task_a`. -/
def c4Store : Store :=
  {emptyStore with
    workflows := Function.update emptyStore.workflows "wf-1"
      (some ⟨"wf-1", .running, 0, 0, none⟩),
    tasks := fun k =>
      if k = ("wf-1", "task_a") then
        some ⟨"task_a", "wf-1", "a:Op", .running, 0, 0, [], [], none⟩
      else if k = ("wf-1", "task_b") then
        some ⟨"task_b", "wf-1", "b:Op", .pending, 1, 1, [], [], none⟩
      else none,
    taskIndex := Function.update emptyStore.taskIndex "wf-1" ["task_a", "task_b"],
    deps := Function.update emptyStore.deps ("wf-1", "task_b") ["task_a"],
    dependents := Function.update emptyStore.dependents ("wf-1", "task_a") ["task_b"]}

/-- Concrete reference for the C1 witness. -/
def c1Ref : DataReference := ⟨.file, "/data/in.csv", .csv, none, none, none, .nil⟩

/-- Two-node graph `a:Op → b:Op` for the C1 witness. -/
def c1Graph : ExecutionGraph :=
  ⟨["a:Op"],
    [("a:Op", ⟨"a:Op", ["b:Op"], []⟩),
     ("b:Op", ⟨"b:Op", [], ["a:Op"]⟩)]⟩

/-- Concrete stand-in for the sha256 digest in the C1 witness. -/
def c1Digest : String → String :=
  fun k => if k = "a:Op" then "aaaaaaaa" else "bbbbbbbb"

/-- The C1 witness store: the two-node workflow actually initialized from
the empty keyspace. -/
def c1Store : Store :=
  M.exec (initialize_workflow c1Digest "wf-1" c1Graph) emptyStore

/-! ## C3: enqueue discipline -/
/-- Every ghost enqueue event so far was recorded with an empty remaining
dependency set. -/
def ZeroLog (s : Store) : Prop :=
  ∀ ev ∈ s.enqueueLog, ev.remaining_deps = 0

/-- Workflow/task address of a ghost enqueue event. -/
def evPair (ev : EnqEvent) : String × String :=
  (ev.workflow_id, ev.task_id)

/-- Number of times a task has been enqueued on a workflow's queue so
far. -/
def countEnq (s : Store) (wf t : String) : Nat :=
  (s.enqueueLog.map evPair).countP (fun q => decide (q = (wf, t)))

/-- The facts about a workflow's store that the enqueue-count argument
maintains across `complete_task` calls.  `tids` are the workflow's task
ids, `origDeps`/`origDependents` the dependency relation laid down at
initialization, and `C` the set (as a list) of already-completed task
ids. -/
structure C3Inv (wf : String) (tids : List String)
    (origDeps origDependents : String → List String)
    (C : List String) (s : Store) : Prop where
  wf_ne : ¬wf = ""
  tid_ne : ∀ t ∈ tids, ¬t = ""
  dependents_sub : ∀ t ∈ tids, origDependents t ⊆ tids
  dependents_nodup : ∀ t ∈ tids, (origDependents t).Nodup
  consistent : ∀ t ∈ tids, ∀ d ∈ tids, (d ∈ origDependents t ↔ t ∈ origDeps d)
  deps_eq : ∀ t ∈ tids,
    s.deps (wf, t) = (origDeps t).filter (fun x => decide (x ∉ C))
  dependents_eq : ∀ t ∈ tids, s.dependents (wf, t) = origDependents t
  tasks_some : ∀ t ∈ tids, (s.tasks (wf, t)).isSome = true
  wf_some : (s.workflows wf).isSome = true
  index_ok : ∀ i ∈ s.taskIndex wf, ¬i = "" ∧ (s.tasks (wf, i)).isSome = true
  count_eq : ∀ t ∈ tids, countEnq s wf t = if origDeps t ⊆ C then 1 else 0

/-- The shape of a freshly initialized workflow's store, before
`start_workflow`: dependency sets as laid down by `initialize_workflow`,
graph hash values naming exactly the task ids, and an empty ghost log. -/
structure C3Init (wf : String) (tids : List String)
    (origDeps origDependents : String → List String) (s : Store) : Prop where
  wf_ne : ¬wf = ""
  tid_ne : ∀ t ∈ tids, ¬t = ""
  tids_nodup : tids.Nodup
  graph_vals : hvalsL (s.graphMap wf) = tids
  dependents_sub : ∀ t ∈ tids, origDependents t ⊆ tids
  dependents_nodup : ∀ t ∈ tids, (origDependents t).Nodup
  consistent : ∀ t ∈ tids, ∀ d ∈ tids, (d ∈ origDependents t ↔ t ∈ origDeps d)
  deps_eq : ∀ t ∈ tids, s.deps (wf, t) = origDeps t
  dependents_eq : ∀ t ∈ tids, s.dependents (wf, t) = origDependents t
  tasks_some : ∀ t ∈ tids, (s.tasks (wf, t)).isSome = true
  wf_some : (s.workflows wf).isSome = true
  index_ok : ∀ i ∈ s.taskIndex wf, ¬i = "" ∧ (s.tasks (wf, i)).isSome = true
  log_empty : s.enqueueLog = []

/-- A sequence of `complete_task` calls on one workflow (the worker-driven
engine operations after `start_workflow`), each with its reported
outputs. -/
def runCompletes (wf : String) :
    List (String × Option (List DataReference)) → M Unit
  | [] => pure ()
  | (t, o) :: rest => do
    let _ ← complete_task wf t o
    runCompletes wf rest

/-- Single-node graph for the C3 counterexample and witness. -/
def c3Graph : ExecutionGraph :=
  ⟨["a:Op"], [("a:Op", ⟨"a:Op", [], []⟩)]⟩

/-- Concrete stand-in for the sha256 digest in the C3 scenarios. -/
def c3Digest : String → String := fun _ => "aaaaaaaa"

/-- A freshly initialized single-task workflow. -/
def c3StartStore : Store :=
  M.exec (initialize_workflow c3Digest "wf-1" c3Graph) emptyStore

/-- The single-task workflow after `start_workflow` has been called twice
(a sequence of engine operations the claim quantifies over). -/
def c3DoubleStart : Store :=
  M.exec (start_workflow "wf-1" >>= fun _ => start_workflow "wf-1") c3StartStore

/-! ## C7: the blueprint parser's graph building and cycle detection
(`services/blueprint_parser.py`)

The pydantic layer (`BlueprintSchema.model_validate`) is elided: the model
starts from an already-validated schema, keeping exactly the fields the
connection validator, `_build_graph` and `_detect_cycles` read.  A source
`GraphNode` object is identified by its `key` (the parser's `node_map` and
`ExecutionGraph.all_nodes` are both keyed by it, and `__eq__`/`__hash__`
delegate to it), so object mutation becomes keyed map update. -/
/-- `BlueprintOperationSignature` (only `operation_name` is read by graph
construction; the message-name/stream payload fields are carried opaquely
by the source and elided here). -/
structure BlueprintOperationSignature where
  operation_name : String
deriving DecidableEq, Repr

/-- `BlueprintConnection`. -/
structure BlueprintConnection where
  container_name : String
  operation_signature : BlueprintOperationSignature
deriving DecidableEq, Repr

/-- `BlueprintOperationList`. -/
structure BlueprintOperationList where
  operation_signature : BlueprintOperationSignature
  connected_to : List BlueprintConnection := []
deriving DecidableEq, Repr

/-- `BlueprintNode` (again keeping the fields graph construction reads). -/
structure BlueprintNode where
  container_name : String
  operation_signature_list : List BlueprintOperationList
deriving DecidableEq, Repr

/-- `BlueprintSchema` (the `nodes` list; the name/id/date/type/version
strings are not read past pydantic validation). -/
structure BlueprintSchema where
  nodes : List BlueprintNode
deriving DecidableEq, Repr

/-- The `f"{container_name}:{operation_name}"` key format used throughout
the parser. -/
def opKey (container op : String) : String := container ++ ":" ++ op

/-- First loop of `_validate_connections`: collect every
`container:operation` key into the `valid_targets` set. -/
def validTargets (schema : BlueprintSchema) : List String :=
  schema.nodes.foldl (fun acc node =>
    node.operation_signature_list.foldl (fun acc op =>
      saddL acc (opKey node.container_name op.operation_signature.operation_name))
      acc) []

/-- Innermost loop of `_validate_connections`: raise on the first
connection whose target key is unknown. -/
def checkConns (targets : List String) : List BlueprintConnection → Except String Unit
  | [] => .ok ()
  | conn :: rest =>
    if opKey conn.container_name conn.operation_signature.operation_name ∈ targets then
      checkConns targets rest
    else
      .error ("Invalid connection target: " ++
        opKey conn.container_name conn.operation_signature.operation_name)

/-- Middle loop of `_validate_connections`. -/
def checkOps (targets : List String) : List BlueprintOperationList → Except String Unit
  | [] => .ok ()
  | op :: rest =>
    match checkConns targets op.connected_to with
    | .error e => .error e
    | .ok () => checkOps targets rest

/-- Outer loop of `_validate_connections`. -/
def checkNodes (targets : List String) : List BlueprintNode → Except String Unit
  | [] => .ok ()
  | node :: rest =>
    match checkOps targets node.operation_signature_list with
    | .error e => .error e
    | .ok () => checkNodes targets rest

/-- `BlueprintParser._validate_connections`. -/
def validateConnections (schema : BlueprintSchema) : Except String Unit :=
  checkNodes (validTargets schema) schema.nodes

/-- Keyed insert into the node map (`node_map[key] = node` /
`all_nodes[key] = node`: replace in place, else append — Python dict
update keeps the original insertion position). -/
def hsetG (m : List (String × GraphNode)) (k : String) (v : GraphNode) :
    List (String × GraphNode) :=
  match m with
  | [] => [(k, v)]
  | (k', v') :: tl => if k' = k then (k, v) :: tl else (k', v') :: hsetG tl k v

/-- Keyed in-place object mutation: apply `f` to the node stored at `k`. -/
def updG (m : List (String × GraphNode)) (k : String) (f : GraphNode → GraphNode) :
    List (String × GraphNode) :=
  m.map (fun p => if p.1 = k then (p.1, f p.2) else p)

/-- First pass of `_build_graph`, inner loop: one fresh `GraphNode` per
operation of the node. -/
def addNodesOpsLoop (container : String) :
    List BlueprintOperationList → List (String × GraphNode) →
      List (String × GraphNode)
  | [], m => m
  | op :: rest, m =>
    addNodesOpsLoop container rest
      (hsetG m (opKey container op.operation_signature.operation_name)
        ⟨opKey container op.operation_signature.operation_name, [], []⟩)

/-- First pass of `_build_graph`, outer loop. -/
def addNodesLoop : List BlueprintNode → List (String × GraphNode) →
    List (String × GraphNode)
  | [], m => m
  | node :: rest, m =>
    addNodesLoop rest (addNodesOpsLoop node.container_name node.operation_signature_list m)

/-- Second pass of `_build_graph`, innermost loop: for each connection,
`source_node.next_nodes.append(target_node)` and
`target_node.dependencies.append(source_node)`. -/
def addConnsLoop (src : String) :
    List BlueprintConnection → List (String × GraphNode) →
      List (String × GraphNode)
  | [], m => m
  | conn :: rest, m =>
    addConnsLoop src rest
      (updG
        (updG m src (fun n => {n with next_nodes := n.next_nodes ++
          [opKey conn.container_name conn.operation_signature.operation_name]}))
        (opKey conn.container_name conn.operation_signature.operation_name)
        (fun n => {n with dependencies := n.dependencies ++ [src]}))

/-- Second pass of `_build_graph`, middle loop. -/
def addEdgesOpsLoop (container : String) :
    List BlueprintOperationList → List (String × GraphNode) →
      List (String × GraphNode)
  | [], m => m
  | op :: rest, m =>
    addEdgesOpsLoop container rest
      (addConnsLoop (opKey container op.operation_signature.operation_name)
        op.connected_to m)

/-- Second pass of `_build_graph`, outer loop. -/
def addEdgesLoop : List BlueprintNode → List (String × GraphNode) →
    List (String × GraphNode)
  | [], m => m
  | node :: rest, m =>
    addEdgesLoop rest (addEdgesOpsLoop node.container_name node.operation_signature_list m)

/-- The node map after both passes of `_build_graph`. -/
def buildMap (schema : BlueprintSchema) : List (String × GraphNode) :=
  addEdgesLoop schema.nodes (addNodesLoop schema.nodes [])

/-- `BlueprintParser._build_graph`: build the node map, then reject when no
node is dependency-free (`start_nodes = [n for n in all_nodes.values() if
not n.dependencies]`), else record the start nodes. -/
def buildGraph (schema : BlueprintSchema) : Except String ExecutionGraph :=
  if ((buildMap schema).map Prod.snd).filter (fun n => n.dependencies = []) = [] then
    .error "No start nodes found"
  else
    .ok ⟨(((buildMap schema).map Prod.snd).filter
        (fun n => n.dependencies = [])).map (fun n => n.key),
      buildMap schema⟩

/-- The keys adjacent to `k`: the `next_nodes` of the node stored at `k`
(a key absent from the graph has no successors). -/
def nextKeys (g : ExecutionGraph) (k : String) : List String :=
  match g.node? k with
  | some n => n.next_nodes
  | none => []

mutual
/-- `has_cycle` of `_detect_cycles`, with the recursion depth made explicit
as fuel (`none` = out of fuel; the fuel `detectCycles` passes is proven
sufficient below): mark `u` visited and grey, then scan its successors.
The grey stack is passed downward only, matching `rec_stack.remove` on
normal return. -/
def visit (adj : String → List String) :
    Nat → String → List String → List String → Option (Bool × List String)
  | 0, _, _, _ => none
  | fuel + 1, u, visited, stack =>
    visitList adj fuel (adj u) (saddL visited u) (saddL stack u)
termination_by fuel u visited stack => (fuel, 0)
/-- The `for next_node in node.next_nodes` loop of `has_cycle`: a visited
grey successor reports a cycle, a visited non-grey one is skipped, an
unvisited one is descended into. -/
def visitList (adj : String → List String) :
    Nat → List String → List String → List String → Option (Bool × List String)
  | _, [], visited, _ => some (false, visited)
  | fuel, v :: vs, visited, stack =>
    if v ∈ visited then
      if v ∈ stack then some (true, visited)
      else visitList adj fuel vs visited stack
    else
      match visit adj fuel v visited stack with
      | none => none
      | some (true, visited') => some (true, visited')
      | some (false, visited') => visitList adj fuel vs visited' stack
termination_by fuel vs visited stack => (fuel, vs.length + 1)
end

/-- The `for start_node in graph.start_nodes` loop of `_detect_cycles`:
skip visited starts, descend into fresh ones, abort on the first cycle. -/
def dcLoop (adj : String → List String) (fuel : Nat) :
    List String → List String → Option Bool
  | [], _ => some false
  | s :: ss, visited =>
    if s ∈ visited then dcLoop adj fuel ss visited
    else
      match visit adj fuel s visited [] with
      | none => none
      | some (true, _) => some true
      | some (false, visited') => dcLoop adj fuel ss visited'

/-- Every key the DFS can ever visit: the start keys, the stored keys and
every successor key.  Its length bounds the recursion depth. -/
def keyUniverse (g : ExecutionGraph) : List String :=
  g.start_nodes ++ g.all_nodes.map (fun p => p.1) ++
    (g.all_nodes.map (fun p => p.2.next_nodes)).join

/-- `BlueprintParser._detect_cycles` (the `none` branch is unreachable:
the fuel is proven sufficient). -/
def detectCycles (g : ExecutionGraph) : Except String Unit :=
  match dcLoop (nextKeys g) ((keyUniverse g).length + 1) g.start_nodes [] with
  | some true => .error "Circular dependency detected"
  | some false => .ok ()
  | none => .error "Circular dependency detected"

/-- `BlueprintParser.parse_json`, from the already-validated schema:
validate connection targets, build the graph, detect cycles; any raise
propagates. -/
def parse_json (schema : BlueprintSchema) : Except String ExecutionGraph :=
  match validateConnections schema with
  | .error e => .error e
  | .ok () =>
    match buildGraph schema with
    | .error e => .error e
    | .ok graph =>
      match detectCycles graph with
      | .error e => .error e
      | .ok () => .ok graph

/-- Reachability along successor lists: `Reaches adj a b` iff there is a
(possibly empty) edge path from `a` to `b`. -/
inductive Reaches (adj : String → List String) : String → String → Prop where
  | refl (a : String) : Reaches adj a a
  | tail {a b c : String} : Reaches adj a b → c ∈ adj b → Reaches adj a c

/-- A directed cycle through `a`: some successor of `a` reaches back to
`a`. -/
def CycleAt (adj : String → List String) (a : String) : Prop :=
  ∃ b ∈ adj a, Reaches adj b a

/-- No cycle is reachable from `x`. -/
def Clean (adj : String → List String) (x : String) : Prop :=
  ¬∃ c, Reaches adj x c ∧ CycleAt adj c

/-- The graph has a cycle reachable from one of its start nodes. -/
def HasReachableCycle (g : ExecutionGraph) : Prop :=
  ∃ s ∈ g.start_nodes, ∃ c, Reaches (nextKeys g) s c ∧ CycleAt (nextKeys g) c

/-- Two-node acyclic blueprint (`A:op → B:op`) for the C7 witness. -/
def c7Schema : BlueprintSchema :=
  ⟨[⟨"A", [⟨⟨"op"⟩, [⟨"B", ⟨"op"⟩⟩]⟩]⟩, ⟨"B", [⟨⟨"op"⟩, []⟩]⟩]⟩

/-- The graph `_build_graph` produces for `c7Schema`. -/
def c7Graph : ExecutionGraph :=
  ⟨["A:op"], [("A:op", ⟨"A:op", ["B:op"], []⟩), ("B:op", ⟨"B:op", [], ["A:op"]⟩)]⟩

/-! ## Theorems -/

/-- Round trip of the `Protocol` enum through its string value. -/
theorem Protocol.ofStr_of_toStr (p : Protocol) : Protocol.ofStr p.toStr = some p := by
  cases p <;> rfl

/-- Round trip of the `Format` enum through its string value. -/
theorem Format.ofStr_from_toStr (f : Format) : Format.ofStr f.toStr = some f := by
  cases f <;> rfl

/-- Decoding inverts serialization for optional string fields. -/
theorem decodeOptStr_jsonOfOptStr (o : Option String) :
    decodeOptStr (some (jsonOfOptStr o)) = .ok o := by
  cases o <;> rfl

/-- Decoding inverts serialization for optional integer fields. -/
theorem decodeOptInt_jsonOfOptInt (o : Option Int) :
    decodeOptInt (some (jsonOfOptInt o)) = .ok o := by
  cases o <;> rfl

/-- Parsing a serialized record reduces to re-running the validating
constructor on the record's own fields. -/
theorem DataReference.parse_serialize (p : Protocol) (u : String) (f : Format)
    (su : Option String) (sb : Option Int) (ck : Option String) (md : JsonObj) :
    DataReference.parse (DataReference.serialize ⟨p, u, f, su, sb, ck, md⟩) =
      DataReference.make p u f su sb ck md := by
  simp [DataReference.parse, DataReference.serialize, JsonObj.lookup,
    decodeOptStr_jsonOfOptStr, decodeOptInt_jsonOfOptInt,
    Protocol.ofStr_of_toStr, Format.ofStr_from_toStr, Except.bind]
  rfl

/-- C9: for every `DataReference` accepted by the validating constructor,
serializing it to JSON and parsing the result back yields an equal
reference. -/
theorem C9_data_reference_roundtrip (p : Protocol) (u : String) (f : Format)
    (su : Option String) (sb : Option Int) (ck : Option String) (md : JsonObj)
    (r : DataReference)
    (h : DataReference.make p u f su sb ck md = .ok r) :
    DataReference.parse r.serialize = .ok r := by
  have hr : r = ⟨p, u, f, su, sb, ck, md⟩ := by
    unfold DataReference.make at h
    repeat' split at h
    all_goals first
      | (exact (Except.ok.inj h).symm)
      | (exact absurd h (by simp))
  subst hr
  rw [DataReference.parse_serialize]
  exact h

/-- Witness for C9 at a concrete reference carrying every optional field. -/
theorem C9_data_reference_roundtrip_witness :
    ∃ r : DataReference,
      DataReference.make .s3 "s3://bucket/out.json" .json (some "s3://bucket/schema.json")
        (some 42) (some "sha256:abc") (.cons "k" (.str "v") .nil) = .ok r ∧
      DataReference.parse r.serialize = .ok r := by
  refine ⟨⟨.s3, "s3://bucket/out.json", .json, some "s3://bucket/schema.json",
    some 42, some "sha256:abc", .cons "k" (.str "v") .nil⟩, ?_, ?_⟩
  · simp [DataReference.make, uriEmpty, sizeBytesInvalid, checksumInvalid,
      uriProtocolInvalid, pyStartsWith, listStartsWith, isPySpace]
  · exact C9_data_reference_roundtrip .s3 "s3://bucket/out.json" .json
      (some "s3://bucket/schema.json") (some 42) (some "sha256:abc")
      (.cons "k" (.str "v") .nil) _
      (by simp [DataReference.make, uriEmpty, sizeBytesInvalid, checksumInvalid,
        uriProtocolInvalid, pyStartsWith, listStartsWith, isPySpace])

theorem M.run_pure (a : α) (s : Store) :
    (pure a : M α) s = (.ok a, s) := rfl

theorem M.run_bind (m : M α) (f : α → M β) (s : Store) :
    (m >>= f) s =
      match m s with
      | (.ok a, s') => f a s'
      | (.error e, s') => (.error e, s') := rfl

/-! ## Running the effect monad: unfolding lemmas -/
@[simp] theorem M.run_pure' (a : α) (s : Store) :
    (Pure.pure a : M α) s = (.ok a, s) := rfl

@[simp] theorem M.run_bind' (m : M α) (f : α → M β) (s : Store) :
    (m >>= f) s =
      match m s with
      | (.ok a, s') => f a s'
      | (.error e, s') => (.error e, s') := rfl

@[simp] theorem M.run_throw (e : Err) (s : Store) :
    (M.throw e : M α) s = (.error e, s) := rfl

@[simp] theorem M.run_get (s : Store) : M.get s = (.ok s, s) := rfl

@[simp] theorem M.run_modify (f : Store → Store) (s : Store) :
    M.modify f s = (.ok (), f s) := rfl

@[simp] theorem M.run_ite (c : Prop) [Decidable c] (m₁ m₂ : M α) (s : Store) :
    (if c then m₁ else m₂) s = if c then m₁ s else m₂ s := by
  split <;> rfl

@[simp] theorem run_utcNow (s : Store) :
    utcNow s = (.ok s.clock, {s with clock := s.clock + 1}) := rfl

/-! ## C10: `update_task_status` frame conditions -/
/-- C10: `update_task_status` rewrites only the addressed task record; in
the new record only `status` and `updated_at` always change, `output_refs`
changes exactly when that argument is provided, `error` changes exactly
when that argument is provided, and `task_id`, `workflow_id`, `node_key`,
`created_at` and `input_refs` are carried over unchanged. -/
theorem C10_update_task_status_frame
    (wf tid : String) (st : TaskStatus) (orefs : Option (List DataReference))
    (err : Option String) (s : Store) (t : TaskState)
    (hwf : ¬wf = "") (htid : ¬tid = "")
    (ht : s.tasks (wf, tid) = some t) :
    ∃ t', update_task_status wf tid st orefs err s =
      (.ok t',
        {s with
          clock := s.clock + 1,
          tasks := Function.update s.tasks (wf, tid) (some t')}) ∧
      t'.status = st ∧
      t'.updated_at = s.clock ∧
      t'.task_id = t.task_id ∧
      t'.workflow_id = t.workflow_id ∧
      t'.node_key = t.node_key ∧
      t'.created_at = t.created_at ∧
      t'.input_refs = t.input_refs ∧
      t'.output_refs = (match orefs with
        | some refs => refs
        | none => t.output_refs) ∧
      t'.error = (match err with
        | some e => some e
        | none => t.error) := by
  refine ⟨{t with
    status := st,
    updated_at := s.clock,
    output_refs := match orefs with
      | some refs => refs
      | none => t.output_refs,
    error := match err with
      | some e => some e
      | none => t.error}, ?_, by simp, by simp, by simp, by simp, by simp,
    by simp, by simp, by simp, by simp⟩
  simp [update_task_status, get_task, hwf, htid, ht]
  exact ⟨⟨rfl, rfl⟩, rfl⟩

/-- Witness for C10 on a one-task store with both optional arguments
omitted. -/
theorem C10_update_task_status_frame_witness :
    let t : TaskState :=
      ⟨"task_1", "wf-1", "a:Op", .running, 0, 0, [], [], some "old"⟩
    let s : Store :=
      {emptyStore with
        tasks := Function.update emptyStore.tasks ("wf-1", "task_1") (some t)}
    ∃ t', update_task_status "wf-1" "task_1" .completed none none s =
      (.ok t',
        {s with
          clock := s.clock + 1,
          tasks := Function.update s.tasks ("wf-1", "task_1") (some t')}) ∧
      t'.status = .completed ∧
      t'.updated_at = s.clock ∧
      t'.task_id = t.task_id ∧
      t'.workflow_id = t.workflow_id ∧
      t'.node_key = t.node_key ∧
      t'.created_at = t.created_at ∧
      t'.input_refs = t.input_refs ∧
      t'.output_refs = t.output_refs ∧
      t'.error = t.error := by
  exact C10_update_task_status_frame "wf-1" "task_1" .completed none none _ _
    (by decide) (by decide) (by simp)

/-! ## C8: `fail_task` -/
/-- C8: `fail_task` moves the task to `failed` with the given error, moves
the workflow to `failed` with exactly the summarizing error string
`"Task <task_id> failed: <error>"`, and touches neither any queue nor the
enqueue log (no dependent is enqueued). -/
theorem C8_fail_task_marks_failed
    (wf tid e : String) (s : Store) (t : TaskState) (w : WorkflowState)
    (hwf : ¬wf = "") (htid : ¬tid = "") (herr : ¬e = "")
    (ht : s.tasks (wf, tid) = some t) (hw : s.workflows wf = some w) :
    fail_task wf tid e s =
      (.ok {t with status := .failed, updated_at := s.clock, error := some e},
        {s with
          clock := s.clock + 1 + 1,
          tasks := Function.update s.tasks (wf, tid)
            (some {t with status := .failed, updated_at := s.clock, error := some e}),
          workflows := Function.update s.workflows wf
            (some
              {w with
                status := .failed,
                updated_at := s.clock + 1,
                error := some ("Task " ++ tid ++ " failed: " ++ e)})}) ∧
    (M.exec (fail_task wf tid e) s).queue = s.queue ∧
    (M.exec (fail_task wf tid e) s).enqueueLog = s.enqueueLog := by
  have hrun : fail_task wf tid e s =
      (.ok {t with status := .failed, updated_at := s.clock, error := some e},
        {s with
          clock := s.clock + 1 + 1,
          tasks := Function.update s.tasks (wf, tid)
            (some {t with status := .failed, updated_at := s.clock, error := some e}),
          workflows := Function.update s.workflows wf
            (some
              {w with
                status := .failed,
                updated_at := s.clock + 1,
                error := some ("Task " ++ tid ++ " failed: " ++ e)})}) := by
    simp [fail_task, update_task_status, update_workflow_status, get_task,
      get_workflow, hwf, htid, herr, ht, hw]
  refine ⟨hrun, ?_, ?_⟩ <;> simp [M.exec, hrun]

/-- Witness for C8 on a one-workflow, one-task store. -/
theorem C8_fail_task_marks_failed_witness :
    let t : TaskState := ⟨"task_1", "wf-1", "a:Op", .running, 0, 0, [], [], none⟩
    let w : WorkflowState := ⟨"wf-1", .running, 0, 0, none⟩
    let s : Store :=
      {emptyStore with
        tasks := Function.update emptyStore.tasks ("wf-1", "task_1") (some t),
        workflows := Function.update emptyStore.workflows "wf-1" (some w)}
    fail_task "wf-1" "task_1" "boom" s =
      (.ok {t with status := .failed, updated_at := s.clock, error := some "boom"},
        {s with
          clock := s.clock + 1 + 1,
          tasks := Function.update s.tasks ("wf-1", "task_1")
            (some
              {t with
                status := .failed,
                updated_at := s.clock,
                error := some "boom"}),
          workflows := Function.update s.workflows "wf-1"
            (some
              {w with
                status := .failed,
                updated_at := s.clock + 1,
                error := some ("Task " ++ "task_1" ++ " failed: " ++ "boom")})}) ∧
    (M.exec (fail_task "wf-1" "task_1" "boom") s).queue = s.queue ∧
    (M.exec (fail_task "wf-1" "task_1" "boom") s).enqueueLog = s.enqueueLog := by
  exact C8_fail_task_marks_failed "wf-1" "task_1" "boom" _ _ _
    (by decide) (by decide) (by decide) (by simp) (by simp)

/-! ## C5: re-initialization -/
/-- C5 counterexample: initializing the same workflow twice with the same
one-node graph raises `ValueError("Workflow already exists")` on the second
call instead of being a no-op, because `create_workflow` is called first
and refuses an existing id. -/
theorem C5_reinitialize_counterexample :
    let g : ExecutionGraph := ⟨["a:Op"], [("a:Op", ⟨"a:Op", [], []⟩)]⟩
    let digest : String → String := fun _ => "0123456789abcdef"
    let s₁ := M.exec (initialize_workflow digest "wf-1" g) emptyStore
    (initialize_workflow digest "wf-1" g s₁).1 =
      .error (.valueError "Workflow already exists") := by
  decide

/-- C5 amended: re-initializing an existing workflow raises
`ValueError("Workflow already exists")` before performing any write: the
store — in particular every task state and every dependency set — is
returned unchanged.  (The deterministic digest-derived task ids make the
second call target exactly the records of the first, but the guard in
`create_workflow` fires first.) -/
theorem C5_reinitialize_raises_unchanged
    (digest : String → String) (wf : String) (g : ExecutionGraph) (s : Store)
    (w : WorkflowState) (hwf : ¬wf = "") (hg : g.all_nodes ≠ [])
    (hw : s.workflows wf = some w) :
    initialize_workflow digest wf g s =
      (.error (.valueError "Workflow already exists"), s) := by
  simp [initialize_workflow, create_workflow, hwf, hg, hw]

/-- Witness for C5's amended theorem on a one-workflow store. -/
theorem C5_reinitialize_raises_unchanged_witness :
    initialize_workflow (fun _ => "0123456789abcdef") "wf-1"
        ⟨["a:Op"], [("a:Op", ⟨"a:Op", [], []⟩)]⟩
        {emptyStore with
          workflows := Function.update emptyStore.workflows "wf-1"
            (some ⟨"wf-1", .pending, 0, 0, none⟩)} =
      (.error (.valueError "Workflow already exists"),
        {emptyStore with
          workflows := Function.update emptyStore.workflows "wf-1"
            (some ⟨"wf-1", .pending, 0, 0, none⟩)}) :=
  C5_reinitialize_raises_unchanged _ "wf-1" _ _ ⟨"wf-1", .pending, 0, 0, none⟩
    (by decide) (by simp) (by simp [Function.update])

/-! ## C6: `delete_workflow` scope -/
/-- Effect of `deleteTaskRecords`: every listed task record of the workflow
is removed and nothing else changes. -/
theorem deleteTaskRecords_spec (wf : String) (ids : List String) (s : Store) :
    ∃ s', deleteTaskRecords wf ids s = (.ok (), s') ∧
      s'.clock = s.clock ∧
      s'.workflows = s.workflows ∧
      s'.taskIndex = s.taskIndex ∧
      s'.deps = s.deps ∧
      s'.dependents = s.dependents ∧
      s'.graphMap = s.graphMap ∧
      s'.queue = s.queue ∧
      s'.endpoints = s.endpoints ∧
      s'.enqueueLog = s.enqueueLog ∧
      (∀ id ∈ ids, s'.tasks (wf, id) = none) ∧
      (∀ k, (k.1 = wf → k.2 ∉ ids) → s'.tasks k = s.tasks k) := by
  induction ids generalizing s with
  | nil =>
    exact ⟨s, rfl, rfl, rfl, rfl, rfl, rfl, rfl, rfl, rfl, rfl,
      by simp, fun _ _ => rfl⟩
  | cons id rest ih =>
    obtain ⟨s', hrun, h1, h2, h3, h4, h5, h6, h7, h8, h9, hin, hout⟩ :=
      ih {s with tasks := Function.update s.tasks (wf, id) none}
    refine ⟨s', ?_, h1, h2, h3, h4, h5, h6, h7, h8, h9, ?_, ?_⟩
    · simpa [deleteTaskRecords] using hrun
    · intro i hi
      rcases List.mem_cons.mp hi with h | h
      · subst h
        by_cases hmem : i ∈ rest
        · exact hin i hmem
        · rw [hout (wf, i) (fun _ => hmem)]
          simp [Function.update]
      · exact hin i h
    · intro k hk
      rw [hout k (fun h1' => fun h2' => hk h1' (List.mem_cons_of_mem _ h2'))]
      have : ¬(k = (wf, id)) := by
        intro he
        subst he
        exact hk rfl (List.mem_cons_self _ _)
      simp [Function.update, this]

/-- C6 amended: `delete_workflow` removes every indexed task record, the
per-workflow task index and the workflow record, but leaves the `deps` and
`dependents` sets of the workflow's tasks untouched. -/
theorem C6_delete_workflow_scope (wf : String) (s : Store) (hwf : ¬wf = "") :
    ∃ s', delete_workflow wf s = (.ok (), s') ∧
      s'.workflows wf = none ∧
      s'.taskIndex wf = [] ∧
      (∀ id ∈ s.taskIndex wf, s'.tasks (wf, id) = none) ∧
      s'.deps = s.deps ∧
      s'.dependents = s.dependents := by
  obtain ⟨s', hrun, h1, h2, h3, h4, h5, h6, h7, h8, h9, hin, hout⟩ :=
    deleteTaskRecords_spec wf (s.taskIndex wf) s
  refine ⟨{s' with
      taskIndex := Function.update s'.taskIndex wf [],
      workflows := Function.update s'.workflows wf none}, ?_, ?_, ?_, ?_, h4, h5⟩
  · simp [delete_workflow, hwf, hrun]
  · simp [Function.update]
  · simp [Function.update]
  · intro id hid
    exact hin id hid

/-- C6 counterexample: on a store holding a two-task workflow whose second
task has a non-empty dependency set, `delete_workflow` leaves that
dependency set in place, contradicting the claim that dep sets are
removed. -/
theorem C6_delete_workflow_counterexample :
    let s : Store :=
      {emptyStore with
        workflows := Function.update emptyStore.workflows "wf-1"
          (some ⟨"wf-1", .running, 0, 0, none⟩),
        taskIndex := Function.update emptyStore.taskIndex "wf-1"
          ["task_a", "task_b"],
        deps := Function.update emptyStore.deps ("wf-1", "task_b") ["task_a"]}
    (M.exec (delete_workflow "wf-1") s).deps ("wf-1", "task_b") = ["task_a"] := by
  simp [M.exec, delete_workflow, deleteTaskRecords, emptyStore, Function.update]

/-- Witness for C6's amended theorem on the same store as the
counterexample. -/
theorem C6_delete_workflow_scope_witness :
    let s : Store :=
      {emptyStore with
        workflows := Function.update emptyStore.workflows "wf-1"
          (some ⟨"wf-1", .running, 0, 0, none⟩),
        taskIndex := Function.update emptyStore.taskIndex "wf-1"
          ["task_a", "task_b"],
        deps := Function.update emptyStore.deps ("wf-1", "task_b") ["task_a"]}
    ∃ s', delete_workflow "wf-1" s = (.ok (), s') ∧
      s'.workflows "wf-1" = none ∧
      s'.taskIndex "wf-1" = [] ∧
      (∀ id ∈ s.taskIndex "wf-1", s'.tasks ("wf-1", id) = none) ∧
      s'.deps = s.deps ∧
      s'.dependents = s.dependents := by
  exact C6_delete_workflow_scope "wf-1" _ (by decide)

/-! ## Read-only operations leave the store unchanged -/
theorem get_workflow_store (wf : String) (s : Store) : (get_workflow wf s).2 = s := by
  unfold get_workflow
  by_cases h1 : wf = "" <;> cases h3 : s.workflows wf <;> simp [h1, h3]

theorem get_task_store (wf tid : String) (s : Store) : (get_task wf tid s).2 = s := by
  unfold get_task
  by_cases h1 : wf = "" <;> by_cases h2 : tid = "" <;>
    cases h3 : s.tasks (wf, tid) <;> simp [h1, h2, h3]

/-- Outcome of a sequenced computation, by cases on the first step. -/
theorem M.fst_bind (m : M α) (f : α → M β) (s : Store) :
    ((m >>= f) s).1 =
      match (m s).1 with
      | .ok a => (f a (m s).2).1
      | .error e => .error e := by
  show (M.bind' m f s).1 = _
  unfold M.bind'
  rcases m s with ⟨r, s'⟩
  cases r <;> rfl

/-- Final store of a sequenced computation, by cases on the first step. -/
theorem M.snd_bind (m : M α) (f : α → M β) (s : Store) :
    ((m >>= f) s).2 =
      match (m s).1 with
      | .ok a => (f a (m s).2).2
      | .error _ => (m s).2 := by
  show (M.bind' m f s).2 = _
  unfold M.bind'
  rcases m s with ⟨r, s'⟩
  cases r <;> rfl

theorem getTasksOf_store (wf : String) (ids : List String) (s : Store) :
    (getTasksOf wf ids s).2 = s := by
  induction ids generalizing s with
  | nil => rfl
  | cons id rest ih =>
    simp only [getTasksOf]
    rw [M.snd_bind, get_task_store]
    cases (get_task wf id s).1 with
    | error e => rfl
    | ok t =>
      dsimp only
      rw [M.snd_bind, ih]
      cases (getTasksOf wf rest s).1 <;> rfl

theorem get_workflow_tasks_store (wf : String) (s : Store) :
    (get_workflow_tasks wf s).2 = s := by
  unfold get_workflow_tasks
  by_cases hwe : wf = ""
  · simp [hwe]
  simp only [M.run_ite, hwe, if_false]
  rw [M.snd_bind, get_workflow_store]
  cases (get_workflow wf s).1 with
  | error e => rfl
  | ok w =>
    dsimp only
    rw [M.snd_bind]
    dsimp only [M.run_get]
    rw [M.snd_bind, getTasksOf_store]
    cases (getTasksOf wf (s.taskIndex wf) s).1 <;> rfl

theorem allTasksCompleted_store (wf : String) (s : Store) :
    (allTasksCompleted wf s).2 = s := by
  unfold allTasksCompleted
  rw [M.snd_bind, get_workflow_tasks_store]
  cases (get_workflow_tasks wf s).1 <;> rfl

theorem FailedTaskInv_mono {wf tid : String} {s s' : Store}
    (h : FailedTaskInv wf tid s)
    (hw : s'.workflows wf = s.workflows wf)
    (ht : (s'.tasks (wf, tid)).map (·.status) = (s.tasks (wf, tid)).map (·.status))
    (hi : s'.taskIndex wf = s.taskIndex wf) : FailedTaskInv wf tid s' := by
  obtain ⟨⟨w, hw1, hw2⟩, ⟨t, ht1, ht2⟩, hidx⟩ := h
  refine ⟨⟨w, by rw [hw, hw1], hw2⟩, ?_, by rw [hi]; exact hidx⟩
  rw [ht1] at ht
  cases ht' : s'.tasks (wf, tid) with
  | none => rw [ht'] at ht; simp at ht
  | some t' =>
    rw [ht'] at ht
    simp only [Option.map_some'] at ht
    exact ⟨t', rfl, by rw [Option.some.inj ht, ht2]⟩

/-- Membership is preserved by the stable insertion step. -/
theorem mem_insertByCreated (x t : TaskState) (l : List TaskState) :
    x ∈ insertByCreated t l ↔ x = t ∨ x ∈ l := by
  induction l with
  | nil => simp [insertByCreated]
  | cons h tl ih =>
    by_cases hc : h.created_at ≤ t.created_at <;>
      simp [insertByCreated, hc, ih] <;> tauto

/-- Sorting by creation time preserves membership. -/
theorem mem_sortByCreated (x : TaskState) (l : List TaskState) :
    x ∈ sortByCreated l ↔ x ∈ l := by
  induction l with
  | nil => simp [sortByCreated]
  | cons h tl ih => simp [sortByCreated, mem_insertByCreated, ih]

/-- A successful `get_task` returns exactly the stored record. -/
theorem get_task_ok (wf tid : String) (s : Store) (t : TaskState)
    (h : (get_task wf tid s).1 = .ok t) : s.tasks (wf, tid) = some t := by
  unfold get_task at h
  by_cases h1 : wf = ""
  · simp [h1] at h
  by_cases h2 : tid = ""
  · simp [h1, h2] at h
  cases h3 : s.tasks (wf, tid) with
  | none => simp [h1, h2, h3] at h
  | some t' =>
    simp [h1, h2, h3] at h
    rw [h]

/-- Every indexed task record present in the store appears in a successful
`getTasksOf` result. -/
theorem getTasksOf_mem (wf : String) (ids : List String) (s : Store)
    (ts : List TaskState) (h : (getTasksOf wf ids s).1 = .ok ts)
    (id : String) (hid : id ∈ ids) (t : TaskState)
    (ht : s.tasks (wf, id) = some t) : t ∈ ts := by
  induction ids generalizing s ts with
  | nil => cases hid
  | cons i rest ih =>
    simp only [getTasksOf] at h
    rw [M.fst_bind, get_task_store] at h
    cases hr1 : (get_task wf i s).1 with
    | error e => rw [hr1] at h; simp at h
    | ok tk =>
      rw [hr1] at h
      dsimp only at h
      rw [M.fst_bind, getTasksOf_store] at h
      cases hr2 : (getTasksOf wf rest s).1 with
      | error e => rw [hr2] at h; simp at h
      | ok ts' =>
        rw [hr2] at h
        simp only [M.run_pure'] at h
        cases h
        rcases List.mem_cons.mp hid with hii | hii
        · subst hii
          have htk : s.tasks (wf, id) = some tk := get_task_ok wf id s tk hr1
          rw [ht] at htk
          rw [Option.some.inj htk]
          exact List.mem_cons_self _ _
        · exact List.mem_cons_of_mem _ (ih s ts' hr2 hii ht)

/-- Every indexed task record present in the store appears in a successful
`get_workflow_tasks` result. -/
theorem get_workflow_tasks_mem (wf : String) (s : Store) (ts : List TaskState)
    (h : (get_workflow_tasks wf s).1 = .ok ts)
    (id : String) (hid : id ∈ s.taskIndex wf) (t : TaskState)
    (ht : s.tasks (wf, id) = some t) : t ∈ ts := by
  unfold get_workflow_tasks at h
  by_cases hwe : wf = ""
  · simp [hwe] at h
  simp only [M.run_ite, hwe, if_false] at h
  rw [M.fst_bind, get_workflow_store] at h
  cases hr1 : (get_workflow wf s).1 with
  | error e => rw [hr1] at h; simp at h
  | ok w =>
    rw [hr1] at h
    dsimp only at h
    rw [M.fst_bind] at h
    simp only [M.run_get] at h
    rw [M.fst_bind, getTasksOf_store] at h
    cases hr2 : (getTasksOf wf (s.taskIndex wf) s).1 with
    | error e => rw [hr2] at h; simp at h
    | ok ts0 =>
      rw [hr2] at h
      simp only [M.run_pure'] at h
      cases h
      exact (mem_sortByCreated _ _).mpr (getTasksOf_mem wf _ s ts0 hr2 id hid t ht)

/-- While a failed task is indexed, `_all_tasks_completed` can never report
`True`. -/
theorem allTasksCompleted_ne_true (wf tid : String) (s : Store)
    (hinv : FailedTaskInv wf tid s) :
    (allTasksCompleted wf s).1 ≠ .ok true := by
  obtain ⟨hw, ⟨t, ht1, ht2⟩, hidx⟩ := hinv
  intro hcontra
  unfold allTasksCompleted at hcontra
  rw [M.fst_bind, get_workflow_tasks_store] at hcontra
  cases hr : (get_workflow_tasks wf s).1 with
  | error e => rw [hr] at hcontra; simp at hcontra
  | ok ts =>
    rw [hr] at hcontra
    simp only [M.run_pure'] at hcontra
    have hall : ts.all (fun t => t.status = .completed) = true :=
      Except.ok.inj hcontra
    have hmem : t ∈ ts := get_workflow_tasks_mem wf s ts hr tid hidx t ht1
    have := List.all_eq_true.mp hall t hmem
    rw [ht2] at this
    simp at this

/-- `update_task_status` of any other task preserves the failed-workflow
facts. -/
theorem update_task_status_keeps (wf tid wf' tid' : String) (st : TaskStatus)
    (o : Option (List DataReference)) (e : Option String) (s : Store)
    (hne : (wf', tid') ≠ (wf, tid)) (h : FailedTaskInv wf tid s) :
    FailedTaskInv wf tid ((update_task_status wf' tid' st o e) s).2 := by
  unfold update_task_status
  by_cases h1 : wf' = ""
  · simpa [h1] using h
  by_cases h2 : tid' = ""
  · simpa [h1, h2] using h
  simp only [M.run_ite, h1, h2, if_false]
  rw [M.snd_bind, get_task_store]
  cases hg : (get_task wf' tid' s).1 with
  | error e0 => exact h
  | ok t0 =>
    dsimp only
    simp only [M.run_bind', run_utcNow, M.run_modify, M.run_pure']
    refine FailedTaskInv_mono h rfl ?_ rfl
    have : (wf, tid) ≠ (wf', tid') := Ne.symm hne
    simp [Function.update_noteq this]

/-- `_append_input_refs` preserves the failed-workflow facts: it changes
only a task's `input_refs`, never a status. -/
theorem appendInputRefs_keeps (wf tid wf' d : String)
    (refs : List DataReference) (s : Store) (h : FailedTaskInv wf tid s) :
    FailedTaskInv wf tid ((appendInputRefs wf' d refs) s).2 := by
  unfold appendInputRefs
  rw [M.snd_bind, get_task_store]
  cases hg : (get_task wf' d s).1 with
  | error e0 => exact h
  | ok t0 =>
    dsimp only
    simp only [M.run_bind', M.run_modify, M.run_pure']
    refine FailedTaskInv_mono h ?_ ?_ ?_
    · rfl
    · by_cases hk : (wf, tid) = (wf', d)
      · have hst : s.tasks (wf', d) = some t0 := get_task_ok wf' d s t0 hg
        rw [hk]
        show (Function.update s.tasks (wf', d) _ (wf', d)).map _ = _
        rw [Function.update_same, hst]
        rfl
      · show (Function.update s.tasks (wf', d) _ (wf, tid)).map _ = _
        rw [Function.update_noteq hk]
    · rfl

/-- `enqueue_task` preserves the failed-workflow facts. -/
theorem enqueue_task_keeps (wf tid wf' tid' : String) (s : Store)
    (h : FailedTaskInv wf tid s) :
    FailedTaskInv wf tid ((enqueue_task wf' tid') s).2 := by
  unfold enqueue_task
  by_cases h1 : wf' = ""
  · simpa [h1] using h
  by_cases h2 : tid' = ""
  · simpa [h1, h2] using h
  simp only [M.run_ite, h1, h2, if_false, M.run_modify]
  exact FailedTaskInv_mono h rfl rfl rfl

/-- The per-dependent loop of `complete_task` preserves the failed-workflow
facts: it touches `input_refs`, `deps`, the queue and the log, never a
status. -/
theorem processDependentsLoop_keeps (wf tid wf' tsk : String)
    (o : Option (List DataReference)) (ds : List String) (s : Store)
    (h : FailedTaskInv wf tid s) :
    FailedTaskInv wf tid ((processDependentsLoop wf' tsk o ds) s).2 := by
  induction ds generalizing s with
  | nil => exact h
  | cons d rest ih =>
    simp only [processDependentsLoop]
    by_cases hc : outputRefsTruthy o = true
    · rw [M.run_ite, if_pos hc, M.snd_bind]
      cases ha : (appendInputRefs wf' d (o.getD []) s).1 with
      | error e0 => exact appendInputRefs_keeps wf tid wf' d _ s h
      | ok u =>
        dsimp only
        have h1 := appendInputRefs_keeps wf tid wf' d (o.getD []) s h
        generalize (appendInputRefs wf' d (o.getD []) s).2 = s1 at h1 ⊢
        rw [M.snd_bind]
        simp only [M.run_modify]
        rw [M.snd_bind]
        simp only [M.run_get]
        simp only [Function.update_same]
        have h2 : FailedTaskInv wf tid
            {s1 with
              deps :=
                Function.update s1.deps (wf', d) (sremL (s1.deps (wf', d)) tsk)} :=
          FailedTaskInv_mono h1 rfl rfl rfl
        by_cases hq : (sremL (s1.deps (wf', d)) tsk).length = 0
        · rw [M.run_ite, if_pos hq, M.snd_bind]
          cases he : (enqueue_task wf' d _).1 with
          | error e0 => exact enqueue_task_keeps wf tid wf' d _ h2
          | ok u2 =>
            dsimp only
            exact ih _ (enqueue_task_keeps wf tid wf' d _ h2)
        · rw [M.run_ite, if_neg hq, M.snd_bind]
          simp only [M.run_pure']
          exact ih _ h2
    · rw [M.run_ite, if_neg hc, M.snd_bind]
      simp only [M.run_pure']
      rw [M.snd_bind]
      simp only [M.run_modify]
      rw [M.snd_bind]
      simp only [M.run_get]
      simp only [Function.update_same]
      have h2 : FailedTaskInv wf tid
          {s with
            deps :=
              Function.update s.deps (wf', d) (sremL (s.deps (wf', d)) tsk)} :=
        FailedTaskInv_mono h rfl rfl rfl
      by_cases hq : (sremL (s.deps (wf', d)) tsk).length = 0
      · rw [M.run_ite, if_pos hq, M.snd_bind]
        cases he : (enqueue_task wf' d _).1 with
        | error e0 => exact enqueue_task_keeps wf tid wf' d _ h2
        | ok u2 =>
          dsimp only
          exact ih _ (enqueue_task_keeps wf tid wf' d _ h2)
      · rw [M.run_ite, if_neg hq, M.snd_bind]
        simp only [M.run_pure']
        exact ih _ h2

/-- `update_workflow_status` of a different workflow preserves the
failed-workflow facts. -/
theorem update_workflow_status_keeps (wf tid wf' : String)
    (st : WorkflowStatus) (e : Option String) (s : Store)
    (hne : wf' ≠ wf) (h : FailedTaskInv wf tid s) :
    FailedTaskInv wf tid ((update_workflow_status wf' st e) s).2 := by
  unfold update_workflow_status
  by_cases h1 : wf' = ""
  · simpa [h1] using h
  simp only [M.run_ite, h1, if_false]
  rw [M.snd_bind, get_workflow_store]
  cases hg : (get_workflow wf' s).1 with
  | error e0 => exact h
  | ok w0 =>
    dsimp only
    simp only [M.run_bind', run_utcNow, M.run_modify, M.run_pure']
    refine FailedTaskInv_mono h ?_ rfl rfl
    simp [Function.update_noteq (Ne.symm hne)]

/-- One `complete_task` call addressed to any task other than the failed
one preserves the failed-workflow facts; in particular the workflow's
status remains `failed`, because the failed task blocks
`_all_tasks_completed`. -/
theorem complete_task_keeps_failed (wf tid wf' tid' : String)
    (o : Option (List DataReference)) (s : Store)
    (hne : (wf', tid') ≠ (wf, tid)) (h : FailedTaskInv wf tid s) :
    FailedTaskInv wf tid ((complete_task wf' tid' o) s).2 := by
  unfold complete_task
  by_cases h1 : wf' = ""
  · simpa [h1] using h
  by_cases h2 : tid' = ""
  · simpa [h1, h2] using h
  simp only [M.run_ite, h1, h2, if_false]
  rw [M.snd_bind]
  have hu := update_task_status_keeps wf tid wf' tid' .completed o none s hne h
  cases hr : (update_task_status wf' tid' .completed o none s).1 with
  | error e0 => exact hu
  | ok task =>
    dsimp only
    generalize hs1 : (update_task_status wf' tid' TaskStatus.completed o none s).2 = s1 at hu
    rw [M.snd_bind]
    simp only [M.run_get]
    rw [M.snd_bind]
    have hp := processDependentsLoop_keeps wf tid wf' tid' o
      (s1.dependents (wf', tid')) s1 hu
    cases hpr : (processDependentsLoop wf' tid' o (s1.dependents (wf', tid')) s1).1 with
    | error e0 => exact hp
    | ok u =>
      dsimp only
      generalize hs2 :
        (processDependentsLoop wf' tid' o (s1.dependents (wf', tid')) s1).2 = s2 at hp
      rw [M.snd_bind, allTasksCompleted_store]
      cases har : (allTasksCompleted wf' s2).1 with
      | error e0 => exact hp
      | ok b =>
        dsimp only
        cases b with
        | false => simpa using hp
        | true =>
          by_cases hww : wf' = wf
          · subst hww
            exact absurd har (allTasksCompleted_ne_true wf' tid s2 hp)
          · rw [M.run_ite, if_pos rfl, M.snd_bind]
            have hw2 := update_workflow_status_keeps wf tid wf' .completed none s2 hww hp
            cases hws : (update_workflow_status wf' .completed none s2).1 with
            | error e0 => exact hw2
            | ok w3 => exact hw2

/-- C2 amended: the claim's "in particular" path holds — once `fail_task`
has failed a workflow and its task, any later sequence of `complete_task`
calls addressed to other tasks (still-running siblings included) leaves
the workflow status `failed`, because the failed task in the index
falsifies `_all_tasks_completed` forever.  The general statement is false:
`update_workflow_status` (`state_store.py:79-100`) never reads the current
status, so `complete_task` of the failed task itself, `start_workflow`,
`update_workflow_status` or `fail_task` on a terminal workflow overwrites
its status, as the counterexample shows. -/
theorem C2_complete_task_keeps_workflow_failed (wf tid : String) (s : Store)
    (ops : List (String × String × Option (List DataReference)))
    (hinv : FailedTaskInv wf tid s)
    (hops : ∀ p ∈ ops, (p.1, p.2.1) ≠ (wf, tid)) :
    ∃ w, (completeSteps ops s).workflows wf = some w ∧ w.status = .failed := by
  induction ops generalizing s with
  | nil => exact hinv.1
  | cons p rest ih =>
    rcases p with ⟨wf', tid', o⟩
    exact ih _
      (complete_task_keeps_failed wf tid wf' tid' o s
        (hops _ (List.mem_cons_self _ _)) hinv)
      (fun q hq => hops q (List.mem_cons_of_mem _ hq))

/-- C2 counterexample, entering the terminal state through `fail_task`
exactly as the claim does: after `fail_task` has marked the workflow
`failed`, the claim's own quantified operations move it out again.
`complete_task` of the failed task overwrites the task's `failed` status
(`update_task_status` has no guard), which makes `_all_tasks_completed`
true, and its closing `update_workflow_status(wf, COMPLETED)` call moves
the workflow `failed → completed`; a `start_workflow` call moves it
`failed → running`.  Both flips go through `update_workflow_status`
(`state_store.py:79-100`), whose body after the empty-id guard is
`get_workflow` → `model_copy(update={status, updated_at, error})` →
`set` — it never reads `state.status`, so nothing refuses transitions out
of `completed`/`failed` (the spec itself lists the refusal only as what
implementations *should* add, and concedes that eventual `complete_task`
calls "would attempt to move a `failed` workflow to `completed`"). -/
theorem C2_terminal_finality_counterexample :
    let s₀ : Store :=
      {emptyStore with
        workflows := Function.update emptyStore.workflows "wf-1"
          (some ⟨"wf-1", .running, 0, 0, none⟩),
        tasks := Function.update emptyStore.tasks ("wf-1", "task_1")
          (some ⟨"task_1", "wf-1", "a:Op", .running, 0, 0, [], [], none⟩),
        taskIndex := Function.update emptyStore.taskIndex "wf-1" ["task_1"]}
    let s₁ := M.exec (fail_task "wf-1" "task_1" "boom") s₀
    ((s₁.workflows "wf-1").map (·.status) = some .failed) ∧
    (((M.exec (complete_task "wf-1" "task_1" none) s₁).workflows "wf-1").map
        (·.status) = some .completed) ∧
    (((M.exec (start_workflow "wf-1") s₁).workflows "wf-1").map (·.status) =
      some .running) := by
  decide

/-- Witness for C2's amended theorem: a two-task workflow failed on
`task_1`; completing the sibling `task_2` leaves the workflow failed. -/
theorem C2_complete_task_keeps_workflow_failed_witness :
    let s₁ : Store :=
      M.exec (fail_task "wf-1" "task_1" "boom")
        {emptyStore with
          workflows := Function.update emptyStore.workflows "wf-1"
            (some ⟨"wf-1", .running, 0, 0, none⟩),
          tasks := fun k =>
            if k = ("wf-1", "task_1") then
              some ⟨"task_1", "wf-1", "a:Op", .running, 0, 0, [], [], none⟩
            else if k = ("wf-1", "task_2") then
              some ⟨"task_2", "wf-1", "b:Op", .running, 1, 1, [], [], none⟩
            else none,
          taskIndex := Function.update emptyStore.taskIndex "wf-1"
            ["task_1", "task_2"]}
    ∃ w, (completeSteps [("wf-1", "task_2", none)] s₁).workflows "wf-1" = some w ∧
      w.status = .failed := by
  refine C2_complete_task_keeps_workflow_failed "wf-1" "task_1" _
    [("wf-1", "task_2", none)] ⟨?_, ?_, ?_⟩ (by decide)
  · exact ⟨⟨"wf-1", .failed, 0, 1, some "Task task_1 failed: boom"⟩,
      by decide, by decide⟩
  · exact ⟨⟨"task_1", "wf-1", "a:Op", .failed, 0, 0, [], [], some "boom"⟩,
      by decide, by decide⟩
  · decide

/-! ## C4: output propagation to dependents -/
/-- A non-empty provided list is truthy. -/
theorem outputRefsTruthy_some {refs : List DataReference} (h : refs ≠ []) :
    outputRefsTruthy (some refs) = true := by
  cases refs with
  | nil => exact absurd rfl h
  | cons r rs => rfl

/-- A removed member is absent from the set. -/
theorem not_mem_sremL (l : List String) (x : String) : x ∉ sremL l x := by
  simp [sremL]

/-- Successful run of `_append_input_refs`: the outputs land at the end of
the dependent's persisted `input_refs`. -/
theorem appendInputRefs_ok (wf d : String) (refs : List DataReference)
    (s : Store) (td : TaskState) (hwf : ¬wf = "") (hd : ¬d = "")
    (htd : s.tasks (wf, d) = some td) :
    appendInputRefs wf d refs s =
      (.ok (),
        {s with
          tasks :=
            Function.update s.tasks (wf, d)
              (some {td with input_refs := td.input_refs ++ refs})}) := by
  simp [appendInputRefs, get_task, hwf, hd, htd]

/-- Successful run of `enqueue_task`: pushes the task and records the ghost
event; nothing else changes. -/
theorem enqueue_task_ok (wf tid : String) (s : Store)
    (hwf : ¬wf = "") (htid : ¬tid = "") :
    enqueue_task wf tid s =
      (.ok (),
        {s with
          queue := Function.update s.queue wf (tid :: s.queue wf),
          enqueueLog := s.enqueueLog ++
            [⟨wf, tid, (s.deps (wf, tid)).length,
              (s.tasks (wf, tid)).map (·.status)⟩]}) := by
  simp [enqueue_task, hwf, htid]

/-- Effect of the per-dependent loop of `complete_task` when the completed
task has non-empty outputs and every dependent's record exists: the loop
returns normally; each dependent's `input_refs` gains exactly the outputs
as a trailing contiguous block (the append happens in the same loop body,
strictly before the `SREM`), and the completed task leaves each
dependent's dependency set; task records and dep sets outside the
dependent list, and all workflow records, are untouched. -/
theorem processDependentsLoop_effect (wf tsk : String)
    (refs : List DataReference) (ds : List String) (s : Store)
    (hwf : ¬wf = "") (hrefs : refs ≠ []) (hnodup : ds.Nodup)
    (hdne : ∀ d ∈ ds, ¬d = "")
    (hex : ∀ d ∈ ds, ∃ td, s.tasks (wf, d) = some td) :
    ∃ s', processDependentsLoop wf tsk (some refs) ds s = (.ok (), s') ∧
      (∀ d ∈ ds, ∃ td, s.tasks (wf, d) = some td ∧
        s'.tasks (wf, d) = some {td with input_refs := td.input_refs ++ refs} ∧
        tsk ∉ s'.deps (wf, d)) ∧
      (∀ k, (k.1 = wf → k.2 ∉ ds) → s'.tasks k = s.tasks k) ∧
      (∀ k, (k.1 = wf → k.2 ∉ ds) → s'.deps k = s.deps k) ∧
      s'.workflows = s.workflows ∧
      s'.taskIndex = s.taskIndex := by
  induction ds generalizing s with
  | nil =>
    exact ⟨s, rfl, by simp, fun _ _ => rfl, fun _ _ => rfl, rfl, rfl⟩
  | cons d rest ih =>
    obtain ⟨td, htd⟩ := hex d (List.mem_cons_self _ _)
    have hd : ¬d = "" := hdne d (List.mem_cons_self _ _)
    have hdrest : d ∉ rest := (List.nodup_cons.mp hnodup).1
    have hkne : ∀ k : String × String, (k.1 = wf → k.2 ∉ d :: rest) → k ≠ (wf, d) := by
      intro k hk he
      subst he
      exact hk rfl (List.mem_cons_self _ _)
    -- the continuation after the loop body for `d`, for any store whose
    -- observable fields are those the body produces
    have hcont : ∀ sc : Store,
        sc.tasks = Function.update s.tasks (wf, d)
          (some {td with input_refs := td.input_refs ++ refs}) →
        sc.deps = Function.update s.deps (wf, d) (sremL (s.deps (wf, d)) tsk) →
        sc.workflows = s.workflows → sc.taskIndex = s.taskIndex →
        ∃ s', processDependentsLoop wf tsk (some refs) rest sc = (.ok (), s') ∧
          (∀ d' ∈ d :: rest, ∃ td', s.tasks (wf, d') = some td' ∧
            s'.tasks (wf, d') = some {td' with input_refs := td'.input_refs ++ refs} ∧
            tsk ∉ s'.deps (wf, d')) ∧
          (∀ k, (k.1 = wf → k.2 ∉ d :: rest) → s'.tasks k = s.tasks k) ∧
          (∀ k, (k.1 = wf → k.2 ∉ d :: rest) → s'.deps k = s.deps k) ∧
          s'.workflows = s.workflows ∧
          s'.taskIndex = s.taskIndex := by
      intro sc hT hD hW hI
      have hne' : ∀ d' ∈ rest, (wf, d') ≠ (wf, d) := by
        intro d' hmem he
        rw [Prod.mk.injEq] at he
        rw [he.2] at hmem
        exact hdrest hmem
      obtain ⟨s', hrun, hper, hfT, hfD, hW', hI'⟩ :=
        ih sc (List.nodup_cons.mp hnodup).2
          (fun d' h => hdne d' (List.mem_cons_of_mem _ h))
          (fun d' h => by
            obtain ⟨td', htd'⟩ := hex d' (List.mem_cons_of_mem _ h)
            exact ⟨td', by rw [hT, Function.update_noteq (hne' d' h)]; exact htd'⟩)
      refine ⟨s', hrun, ?_, ?_, ?_, by rw [hW', hW], by rw [hI', hI]⟩
      · intro d' hd'
        rcases List.mem_cons.mp hd' with he | hmem
        · subst he
          refine ⟨td, htd, ?_, ?_⟩
          · rw [hfT (wf, d') (fun _ => hdrest), hT, Function.update_same]
          · rw [hfD (wf, d') (fun _ => hdrest), hD, Function.update_same]
            exact not_mem_sremL _ _
        · obtain ⟨td', h1, h2, h3⟩ := hper d' hmem
          rw [hT, Function.update_noteq (hne' d' hmem)] at h1
          exact ⟨td', h1, h2, h3⟩
      · intro k hk
        rw [hfT k (fun h hm => hk h (List.mem_cons_of_mem _ hm)), hT,
          Function.update_noteq (hkne k hk)]
      · intro k hk
        rw [hfD k (fun h hm => hk h (List.mem_cons_of_mem _ hm)), hD,
          Function.update_noteq (hkne k hk)]
    -- run the loop body for `d`
    simp only [processDependentsLoop]
    rw [M.run_ite, if_pos (outputRefsTruthy_some hrefs)]
    simp only [M.run_bind', Option.getD_some]
    rw [appendInputRefs_ok wf d refs s td hwf hd htd]
    simp only [M.run_modify, M.run_get]
    simp only [Function.update_same]
    by_cases hq : (sremL (s.deps (wf, d)) tsk).length = 0
    · rw [M.run_ite, if_pos hq]
      simp only [M.run_bind']
      rw [enqueue_task_ok wf d _ hwf hd]
      exact hcont _ rfl rfl rfl rfl
    · rw [M.run_ite, if_neg hq]
      exact hcont _ rfl rfl rfl rfl

/-- `update_workflow_status` touches only the workflow table and the
clock. -/
theorem update_workflow_status_frame (wf' : String) (st : WorkflowStatus)
    (e : Option String) (s : Store) :
    ((update_workflow_status wf' st e) s).2.tasks = s.tasks ∧
    ((update_workflow_status wf' st e) s).2.deps = s.deps := by
  unfold update_workflow_status
  by_cases h1 : wf' = ""
  · simp [h1]
  simp only [M.run_ite, h1, if_false]
  rw [M.snd_bind, get_workflow_store]
  cases hg : (get_workflow wf' s).1 with
  | error e0 => exact ⟨rfl, rfl⟩
  | ok w =>
    dsimp only
    simp only [M.run_bind', run_utcNow, M.run_modify, M.run_pure']
    simp

/-- A successful `update_task_status` run, in closed form. -/
theorem update_task_status_ok (wf tid : String) (st : TaskStatus)
    (o : Option (List DataReference)) (e : Option String) (s : Store)
    (t : TaskState) (hwf : ¬wf = "") (htid : ¬tid = "")
    (ht : s.tasks (wf, tid) = some t) :
    update_task_status wf tid st o e s =
      (.ok {t with
          status := st,
          updated_at := s.clock,
          output_refs := match o with
            | some refs => refs
            | none => t.output_refs,
          error := match e with
            | some e' => some e'
            | none => t.error},
        {s with
          clock := s.clock + 1,
          tasks := Function.update s.tasks (wf, tid)
            (some {t with
              status := st,
              updated_at := s.clock,
              output_refs := match o with
                | some refs => refs
                | none => t.output_refs,
              error := match e with
                | some e' => some e'
                | none => t.error})}) := by
  simp [update_task_status, get_task, hwf, htid, ht]
  exact ⟨⟨rfl, rfl⟩, rfl⟩

/-- C4: completing a task with non-empty `output_refs` appends those
outputs as a trailing contiguous block to the persisted `input_refs` of
every dependent (the loop body appends before it removes the task from the
dependent's dep set), and removes the completed task from every
dependent's dependency set; so a dependent later claimed and run observes
the refs in its `input_refs`. -/
theorem C4_complete_task_appends_outputs (wf tid : String)
    (refs : List DataReference) (s : Store) (t : TaskState)
    (hwf : ¬wf = "") (htid : ¬tid = "") (hrefs : refs ≠ [])
    (ht : s.tasks (wf, tid) = some t)
    (hnodup : (s.dependents (wf, tid)).Nodup)
    (hself : tid ∉ s.dependents (wf, tid))
    (hdne : ∀ d ∈ s.dependents (wf, tid), ¬d = "")
    (hex : ∀ d ∈ s.dependents (wf, tid), ∃ td, s.tasks (wf, d) = some td) :
    ∀ d ∈ s.dependents (wf, tid), ∃ td, s.tasks (wf, d) = some td ∧
      (M.exec (complete_task wf tid (some refs)) s).tasks (wf, d) =
        some {td with input_refs := td.input_refs ++ refs} ∧
      tid ∉ (M.exec (complete_task wf tid (some refs)) s).deps (wf, d) := by
  have hne : ∀ d' ∈ s.dependents (wf, tid), ((wf, d') : String × String) ≠ (wf, tid) := by
    intro d' hd' he
    rw [Prod.mk.injEq] at he
    rw [he.2] at hd'
    exact hself hd'
  have hupd : update_task_status wf tid .completed (some refs) none s =
      (.ok {t with status := .completed, updated_at := s.clock, output_refs := refs},
        {s with
          clock := s.clock + 1,
          tasks := Function.update s.tasks (wf, tid)
            (some
              {t with
                status := .completed,
                updated_at := s.clock,
                output_refs := refs})}) := by
    simp [update_task_status, get_task, hwf, htid, ht]
  obtain ⟨s2, hrun2, hper, hfT, hfD, hWk, hIdx⟩ :=
    processDependentsLoop_effect wf tid refs (s.dependents (wf, tid))
      {s with
        clock := s.clock + 1,
        tasks := Function.update s.tasks (wf, tid)
          (some
            {t with
              status := .completed,
              updated_at := s.clock,
              output_refs := refs})}
      hwf hrefs hnodup hdne
      (fun d' hd' => by
        obtain ⟨td, htd⟩ := hex d' hd'
        exact ⟨td, by
          dsimp only
          rw [Function.update_noteq (hne d' hd')]
          exact htd⟩)
  have hfin : (complete_task wf tid (some refs) s).2.tasks = s2.tasks ∧
      (complete_task wf tid (some refs) s).2.deps = s2.deps := by
    unfold complete_task
    simp only [M.run_ite, hwf, htid, if_false]
    rw [M.snd_bind, hupd]
    dsimp only
    rw [M.snd_bind]
    simp only [M.run_get]
    rw [M.snd_bind, hrun2]
    dsimp only
    rw [M.snd_bind, allTasksCompleted_store]
    cases har : (allTasksCompleted wf s2).1 with
    | error e0 => exact ⟨rfl, rfl⟩
    | ok b =>
      dsimp only
      cases b with
      | false => exact ⟨rfl, rfl⟩
      | true =>
        rw [M.run_ite, if_pos rfl, M.snd_bind]
        cases hws : (update_workflow_status wf .completed none s2).1 with
        | error e0 => exact update_workflow_status_frame wf .completed none s2
        | ok w3 =>
          dsimp only
          exact update_workflow_status_frame wf .completed none s2
  intro d hd
  obtain ⟨td, h1, h2, h3⟩ := hper d hd
  have h1' : s.tasks (wf, d) = some td := by
    rw [← h1]
    dsimp only
    rw [Function.update_noteq (hne d hd)]
  exact ⟨td, h1',
    by rw [show (M.exec (complete_task wf tid (some refs)) s).tasks = s2.tasks from hfin.1]
       exact h2,
    by rw [show (M.exec (complete_task wf tid (some refs)) s).deps = s2.deps from hfin.2]
       exact h3⟩

/-- Witness for C4 on the two-task store. -/
theorem C4_complete_task_appends_outputs_witness :
    ∃ td, c4Store.tasks ("wf-1", "task_b") = some td ∧
      (M.exec (complete_task "wf-1" "task_a" (some [c4Ref])) c4Store).tasks
          ("wf-1", "task_b") =
        some {td with input_refs := td.input_refs ++ [c4Ref]} ∧
      "task_a" ∉
        (M.exec (complete_task "wf-1" "task_a" (some [c4Ref])) c4Store).deps
          ("wf-1", "task_b") := by
  refine C4_complete_task_appends_outputs "wf-1" "task_a" [c4Ref] c4Store
    ⟨"task_a", "wf-1", "a:Op", .running, 0, 0, [], [], none⟩
    (by decide) (by decide) (by decide) (by decide) (by decide) (by decide)
    (by decide) ?_ "task_b" (by decide)
  intro d hd
  have hde : d = "task_b" := by
    have hdl : c4Store.dependents ("wf-1", "task_a") = ["task_b"] := by decide
    rw [hdl] at hd
    exact List.mem_singleton.mp hd
  subst hde
  exact ⟨⟨"task_b", "wf-1", "b:Op", .pending, 1, 1, [], [], none⟩, by decide⟩

/-! ## C1: the spec's two-argument start -/
/-- A successful `update_workflow_status` run, in closed form. -/
theorem update_workflow_status_ok (wf : String) (st : WorkflowStatus)
    (e : Option String) (s : Store) (w : WorkflowState)
    (hwf : ¬wf = "") (hw : s.workflows wf = some w) :
    update_workflow_status wf st e s =
      (.ok {w with status := st, updated_at := s.clock, error := e},
        {s with
          clock := s.clock + 1,
          workflows := Function.update s.workflows wf
            (some {w with status := st, updated_at := s.clock, error := e})}) := by
  simp [update_workflow_status, get_workflow, hwf, hw]

/-- Effect of the spec-modelled root loop of `start(workflow_id,
initial_inputs)`: every task whose dependency set is empty gets
`initial_inputs` as its `input_refs` and is pushed once onto the queue (in
iteration order); nothing else is touched. -/
theorem startRootsWithInputsLoop_spec (wf : String)
    (inputs : List DataReference) (ts : List String) (s : Store)
    (hwf : ¬wf = "") (hnodup : ts.Nodup) (htne : ∀ t ∈ ts, ¬t = "")
    (hex : ∀ t ∈ ts, s.deps (wf, t) = [] → ∃ tk, s.tasks (wf, t) = some tk) :
    ∃ s', startRootsWithInputsLoop wf (some inputs) ts s = (.ok (), s') ∧
      (∀ t ∈ ts, s.deps (wf, t) = [] →
        ∃ tk, s'.tasks (wf, t) = some tk ∧ tk.input_refs = inputs) ∧
      (∀ k, (k.1 = wf → k.2 ∉ ts) → s'.tasks k = s.tasks k) ∧
      s'.deps = s.deps ∧
      s'.workflows = s.workflows ∧
      s'.queue wf =
        (ts.filter (fun t => decide (s.deps (wf, t) = []))).reverse ++ s.queue wf := by
  induction ts generalizing s with
  | nil =>
    exact ⟨s, rfl, by simp, fun _ _ => rfl, rfl, rfl, by simp⟩
  | cons t1 rest ih =>
    have ht1ne : ¬t1 = "" := htne t1 (List.mem_cons_self _ _)
    have ht1rest : t1 ∉ rest := (List.nodup_cons.mp hnodup).1
    have hkne : ∀ k : String × String, (k.1 = wf → k.2 ∉ t1 :: rest) → k ≠ (wf, t1) := by
      intro k hk he
      subst he
      exact hk rfl (List.mem_cons_self _ _)
    have hne' : ∀ t ∈ rest, ((wf, t) : String × String) ≠ (wf, t1) := by
      intro t hmem he
      rw [Prod.mk.injEq] at he
      rw [he.2] at hmem
      exact ht1rest hmem
    simp only [startRootsWithInputsLoop]
    simp only [M.run_bind', M.run_get]
    by_cases hroot : s.deps (wf, t1) = []
    · obtain ⟨tk, htk⟩ := hex t1 (List.mem_cons_self _ _) hroot
      have hgt : get_task wf t1 s = (.ok tk, s) := by
        simp [get_task, hwf, ht1ne, htk]
      rw [M.run_ite, if_pos (by rw [hroot]; rfl)]
      simp only [M.run_bind']
      rw [hgt]
      dsimp only
      simp only [M.run_modify]
      rw [enqueue_task_ok wf t1 _ hwf ht1ne]
      dsimp only
      obtain ⟨s', hrun, hroots, hframe, hdeps, hwfs, hqueue⟩ :=
        ih {s with
              tasks := Function.update s.tasks (wf, t1)
                (some {tk with input_refs := inputs}),
              queue := Function.update s.queue wf (t1 :: s.queue wf),
              enqueueLog := s.enqueueLog ++
                [⟨wf, t1, (s.deps (wf, t1)).length,
                  ((Function.update s.tasks (wf, t1)
                    (some {tk with input_refs := inputs})) (wf, t1)).map (·.status)⟩]}
          (List.nodup_cons.mp hnodup).2
          (fun t h => htne t (List.mem_cons_of_mem _ h))
          (fun t h hd => by
            obtain ⟨tk', htk'⟩ := hex t (List.mem_cons_of_mem _ h) hd
            exact ⟨tk', by
              dsimp only
              rw [Function.update_noteq (hne' t h)]
              exact htk'⟩)
      refine ⟨s', hrun, ?_, ?_, hdeps, hwfs, ?_⟩
      · intro t ht hd
        rcases List.mem_cons.mp ht with he | hmem
        · subst he
          refine ⟨{tk with input_refs := inputs}, ?_, rfl⟩
          rw [hframe (wf, t) (fun _ => ht1rest)]
          dsimp only
          rw [Function.update_same]
        · exact hroots t hmem hd
      · intro k hk
        rw [hframe k (fun h hm => hk h (List.mem_cons_of_mem _ hm))]
        dsimp only
        rw [Function.update_noteq (hkne k hk)]
      · rw [hqueue]
        dsimp only
        rw [Function.update_same]
        have hfilter : (t1 :: rest).filter (fun t => decide (s.deps (wf, t) = [])) =
            t1 :: rest.filter (fun t => decide (s.deps (wf, t) = [])) := by
          simp [List.filter_cons, hroot]
        rw [hfilter]
        simp [List.append_assoc]
    · rw [M.run_ite, if_neg (fun h => hroot (List.length_eq_zero.mp h))]
      obtain ⟨s', hrun, hroots, hframe, hdeps, hwfs, hqueue⟩ :=
        ih s (List.nodup_cons.mp hnodup).2
          (fun t h => htne t (List.mem_cons_of_mem _ h))
          (fun t h hd => hex t (List.mem_cons_of_mem _ h) hd)
      refine ⟨s', hrun, ?_, ?_, hdeps, hwfs, ?_⟩
      · intro t ht hd
        rcases List.mem_cons.mp ht with he | hmem
        · subst he
          exact absurd hd hroot
        · exact hroots t hmem hd
      · intro k hk
        exact hframe k (fun h hm => hk h (List.mem_cons_of_mem _ hm))
      · rw [hqueue]
        have hfilter : (t1 :: rest).filter (fun t => decide (s.deps (wf, t) = [])) =
            rest.filter (fun t => decide (s.deps (wf, t) = [])) := by
          simp [List.filter_cons, hroot]
        rw [hfilter]

/-- C1: for an initialized workflow (its record exists, the per-workflow
graph hash maps node keys to distinct non-empty task ids, and every
dependency-free task's record exists), the spec's
`start(workflow_id, initial_inputs)` moves the workflow to `running`,
attaches `initial_inputs` as the `input_refs` of every root task (tasks
whose dependency set is empty), and enqueues exactly the root tasks — so
the inputs sit in each root task's persisted `input_refs` before any
worker claims it. -/
theorem C1_start_with_inputs_attaches_and_enqueues_roots
    (wf : String) (inputs : List DataReference) (s : Store) (w : WorkflowState)
    (hwf : ¬wf = "")
    (hw : s.workflows wf = some w)
    (hnodup : (hvalsL (s.graphMap wf)).Nodup)
    (htne : ∀ t ∈ hvalsL (s.graphMap wf), ¬t = "")
    (hex : ∀ t ∈ hvalsL (s.graphMap wf), s.deps (wf, t) = [] →
      ∃ tk, s.tasks (wf, t) = some tk) :
    ∃ s', start_workflow_with_inputs wf (some inputs) s = (.ok (), s') ∧
      (∃ w', s'.workflows wf = some w' ∧ w'.status = .running) ∧
      (∀ t ∈ hvalsL (s.graphMap wf), s.deps (wf, t) = [] →
        ∃ tk, s'.tasks (wf, t) = some tk ∧ tk.input_refs = inputs) ∧
      s'.queue wf =
        ((hvalsL (s.graphMap wf)).filter
          (fun t => decide (s.deps (wf, t) = []))).reverse ++ s.queue wf := by
  obtain ⟨s', hrun, hroots, hframe, hdeps, hwfs, hqueue⟩ :=
    startRootsWithInputsLoop_spec wf inputs (hvalsL (s.graphMap wf))
      {s with
        clock := s.clock + 1,
        workflows := Function.update s.workflows wf
          (some {w with status := .running, updated_at := s.clock, error := none})}
      hwf hnodup htne
      (fun t h hd => hex t h hd)
  refine ⟨s', ?_, ?_, fun t h hd => hroots t h hd, ?_⟩
  · unfold start_workflow_with_inputs
    simp only [M.run_ite, hwf, if_false]
    simp only [M.run_bind']
    rw [update_workflow_status_ok wf .running none s w hwf hw]
    dsimp only
    simp only [M.run_get]
    exact hrun
  · refine ⟨{w with status := .running, updated_at := s.clock, error := none}, ?_, rfl⟩
    rw [hwfs]
    dsimp only
    rw [Function.update_same]
  · rw [hqueue]

/-- Witness for C1 on the initialized two-node workflow. -/
theorem C1_start_with_inputs_witness :
    ∃ s', start_workflow_with_inputs "wf-1" (some [c1Ref]) c1Store = (.ok (), s') ∧
      (∃ w', s'.workflows "wf-1" = some w' ∧ w'.status = .running) ∧
      (∀ t ∈ hvalsL (c1Store.graphMap "wf-1"), c1Store.deps ("wf-1", t) = [] →
        ∃ tk, s'.tasks ("wf-1", t) = some tk ∧ tk.input_refs = [c1Ref]) ∧
      s'.queue "wf-1" =
        ((hvalsL (c1Store.graphMap "wf-1")).filter
          (fun t => decide (c1Store.deps ("wf-1", t) = []))).reverse ++
          c1Store.queue "wf-1" := by
  refine C1_start_with_inputs_attaches_and_enqueues_roots "wf-1" [c1Ref] c1Store
    ⟨"wf-1", .pending, 0, 0, none⟩ (by decide) (by decide) (by decide)
    (by decide) ?_
  intro t h hd
  have hl : hvalsL (c1Store.graphMap "wf-1") = ["task_aaaaaaaa", "task_bbbbbbbb"] := by
    decide
  rw [hl] at h
  rcases (by simpa using h : t = "task_aaaaaaaa" ∨ t = "task_bbbbbbbb") with rfl | rfl
  · exact ⟨⟨"task_aaaaaaaa", "wf-1", "a:Op", .pending, 1, 1, [], [], none⟩, by decide⟩
  · exact ⟨⟨"task_bbbbbbbb", "wf-1", "b:Op", .pending, 2, 2, [], [], none⟩, by decide⟩

theorem zeroLog_update_task_status (wf tid : String) (st : TaskStatus)
    (o : Option (List DataReference)) (e : Option String) (s : Store)
    (h : ZeroLog s) : ZeroLog ((update_task_status wf tid st o e) s).2 := by
  unfold update_task_status
  by_cases h1 : wf = ""
  · simpa [h1] using h
  by_cases h2 : tid = ""
  · simpa [h1, h2] using h
  simp only [M.run_ite, h1, h2, if_false]
  rw [M.snd_bind, get_task_store]
  cases hg : (get_task wf tid s).1 with
  | error e0 => exact h
  | ok t0 =>
    dsimp only
    simp only [M.run_bind', run_utcNow, M.run_modify, M.run_pure']
    exact h

theorem zeroLog_update_workflow_status (wf : String) (st : WorkflowStatus)
    (e : Option String) (s : Store) (h : ZeroLog s) :
    ZeroLog ((update_workflow_status wf st e) s).2 := by
  unfold update_workflow_status
  by_cases h1 : wf = ""
  · simpa [h1] using h
  simp only [M.run_ite, h1, if_false]
  rw [M.snd_bind, get_workflow_store]
  cases hg : (get_workflow wf s).1 with
  | error e0 => exact h
  | ok w0 =>
    dsimp only
    simp only [M.run_bind', run_utcNow, M.run_modify, M.run_pure']
    exact h

theorem zeroLog_appendInputRefs (wf tid : String) (refs : List DataReference)
    (s : Store) (h : ZeroLog s) : ZeroLog ((appendInputRefs wf tid refs) s).2 := by
  unfold appendInputRefs
  rw [M.snd_bind, get_task_store]
  cases hg : (get_task wf tid s).1 with
  | error e0 => exact h
  | ok t0 =>
    dsimp only
    simp only [M.run_bind', M.run_modify, M.run_pure']
    exact h

/-- The root-enqueue loop of `start_workflow` only logs zero-remaining
events: each enqueue is guarded by `SCARD deps == 0` on the very store the
event is recorded from. -/
theorem zeroLog_enqueueRootsLoop (wf : String) (ts : List String) (s : Store)
    (h : ZeroLog s) : ZeroLog ((enqueueRootsLoop wf ts) s).2 := by
  induction ts generalizing s with
  | nil => exact h
  | cons t rest ih =>
    simp only [enqueueRootsLoop]
    simp only [M.run_bind', M.run_get]
    by_cases hq : (s.deps (wf, t)).length = 0
    · rw [M.run_ite, if_pos hq]
      simp only [M.run_bind']
      unfold enqueue_task
      by_cases h1 : wf = ""
      · simp only [M.run_ite, h1, if_true, M.run_throw]
        exact h
      by_cases h2 : t = ""
      · simp only [M.run_ite, h1, h2, if_false, if_true, M.run_throw]
        exact h
      simp only [M.run_ite, h1, h2, if_false, M.run_modify]
      refine ih _ ?_
      intro ev hev
      rcases List.mem_append.mp hev with hin | hnew
      · exact h ev hin
      · rw [List.mem_singleton.mp hnew]
        exact hq
    · rw [M.run_ite, if_neg hq]
      exact ih s h

/-- The dependent loop of `complete_task` only logs zero-remaining events:
each enqueue is guarded by the post-`SREM` `SCARD deps == 0` check on the
very store the event is recorded from. -/
theorem zeroLog_processDependentsLoop (wf tsk : String)
    (o : Option (List DataReference)) (ds : List String) (s : Store)
    (h : ZeroLog s) : ZeroLog ((processDependentsLoop wf tsk o ds) s).2 := by
  induction ds generalizing s with
  | nil => exact h
  | cons d rest ih =>
    simp only [processDependentsLoop]
    by_cases hc : outputRefsTruthy o = true
    · rw [M.run_ite, if_pos hc, M.snd_bind]
      cases ha : (appendInputRefs wf d (o.getD []) s).1 with
      | error e0 => exact zeroLog_appendInputRefs wf d _ s h
      | ok u =>
        dsimp only
        have h1 := zeroLog_appendInputRefs wf d (o.getD []) s h
        generalize (appendInputRefs wf d (o.getD []) s).2 = s1 at h1
        rw [M.snd_bind]
        simp only [M.run_modify]
        rw [M.snd_bind]
        simp only [M.run_get]
        simp only [Function.update_same]
        by_cases hq : (sremL (s1.deps (wf, d)) tsk).length = 0
        · rw [M.run_ite, if_pos hq, M.snd_bind]
          unfold enqueue_task
          by_cases hw1 : wf = ""
          · simp only [M.run_ite, hw1, if_true, M.run_throw]
            exact fun ev hev => h1 ev hev
          by_cases hd1 : d = ""
          · simp only [M.run_ite, hw1, hd1, if_false, if_true, M.run_throw]
            exact fun ev hev => h1 ev hev
          simp only [M.run_ite, hw1, hd1, if_false, M.run_modify]
          refine ih _ ?_
          intro ev hev
          rcases List.mem_append.mp hev with hin | hnew
          · exact h1 ev hin
          · rw [List.mem_singleton.mp hnew]
            simpa [Function.update_same] using hq
        · rw [M.run_ite, if_neg hq, M.snd_bind]
          simp only [M.run_pure']
          exact ih _ (fun ev hev => h1 ev hev)
    · rw [M.run_ite, if_neg hc, M.snd_bind]
      simp only [M.run_pure']
      rw [M.snd_bind]
      simp only [M.run_modify]
      rw [M.snd_bind]
      simp only [M.run_get]
      simp only [Function.update_same]
      by_cases hq : (sremL (s.deps (wf, d)) tsk).length = 0
      · rw [M.run_ite, if_pos hq, M.snd_bind]
        unfold enqueue_task
        by_cases hw1 : wf = ""
        · simp only [M.run_ite, hw1, if_true, M.run_throw]
          exact fun ev hev => h ev hev
        by_cases hd1 : d = ""
        · simp only [M.run_ite, hw1, hd1, if_false, if_true, M.run_throw]
          exact fun ev hev => h ev hev
        simp only [M.run_ite, hw1, hd1, if_false, M.run_modify]
        refine ih _ ?_
        intro ev hev
        rcases List.mem_append.mp hev with hin | hnew
        · exact h ev hin
        · rw [List.mem_singleton.mp hnew]
          simpa [Function.update_same] using hq
      · rw [M.run_ite, if_neg hq, M.snd_bind]
        simp only [M.run_pure']
        exact ih _ (fun ev hev => h ev hev)

theorem zeroLog_start_workflow (wf : String) (s : Store) (h : ZeroLog s) :
    ZeroLog ((start_workflow wf) s).2 := by
  unfold start_workflow
  by_cases h1 : wf = ""
  · simpa [h1] using h
  simp only [M.run_ite, h1, if_false]
  rw [M.snd_bind]
  have hu := zeroLog_update_workflow_status wf .running none s h
  cases hr : (update_workflow_status wf .running none s).1 with
  | error e0 => exact hu
  | ok w0 =>
    dsimp only
    rw [M.snd_bind]
    simp only [M.run_get]
    exact zeroLog_enqueueRootsLoop wf _ _ hu

theorem zeroLog_complete_task (wf tid : String)
    (o : Option (List DataReference)) (s : Store) (h : ZeroLog s) :
    ZeroLog ((complete_task wf tid o) s).2 := by
  unfold complete_task
  by_cases h1 : wf = ""
  · simpa [h1] using h
  by_cases h2 : tid = ""
  · simpa [h1, h2] using h
  simp only [M.run_ite, h1, h2, if_false]
  rw [M.snd_bind]
  have hu := zeroLog_update_task_status wf tid .completed o none s h
  cases hr : (update_task_status wf tid .completed o none s).1 with
  | error e0 => exact hu
  | ok task =>
    dsimp only
    generalize (update_task_status wf tid TaskStatus.completed o none s).2 = s1 at hu
    rw [M.snd_bind]
    simp only [M.run_get]
    rw [M.snd_bind]
    have hp := zeroLog_processDependentsLoop wf tid o (s1.dependents (wf, tid)) s1 hu
    cases hpr : (processDependentsLoop wf tid o (s1.dependents (wf, tid)) s1).1 with
    | error e0 => exact hp
    | ok u =>
      dsimp only
      generalize (processDependentsLoop wf tid o (s1.dependents (wf, tid)) s1).2 = s2 at hp
      rw [M.snd_bind, allTasksCompleted_store]
      cases har : (allTasksCompleted wf s2).1 with
      | error e0 => exact hp
      | ok b =>
        dsimp only
        cases b with
        | false => simpa using hp
        | true =>
          rw [M.run_ite, if_pos rfl, M.snd_bind]
          have hw2 := zeroLog_update_workflow_status wf .completed none s2 hp
          cases hws : (update_workflow_status wf .completed none s2).1 with
          | error e0 => exact hw2
          | ok w3 => exact hw2

/-- Run of the root-enqueue loop of `start_workflow`: the tasks whose
dependency set is currently empty are enqueued once each, in order, and
nothing but the queue and the log changes. -/
theorem enqueueRootsLoop_spec (wf : String) (ts : List String) (s : Store)
    (hwf : ¬wf = "") (htne : ∀ t ∈ ts, ¬t = "") :
    ∃ s', enqueueRootsLoop wf ts s = (.ok (), s') ∧
      s'.deps = s.deps ∧ s'.dependents = s.dependents ∧ s'.tasks = s.tasks ∧
      s'.workflows = s.workflows ∧ s'.graphMap = s.graphMap ∧
      s'.taskIndex = s.taskIndex ∧
      s'.enqueueLog.map evPair =
        s.enqueueLog.map evPair ++
          (ts.filter (fun t => decide ((s.deps (wf, t)).length = 0))).map
            (fun t => (wf, t)) := by
  induction ts generalizing s with
  | nil => exact ⟨s, rfl, rfl, rfl, rfl, rfl, rfl, rfl, by simp⟩
  | cons t rest ih =>
    have htn : ¬t = "" := htne t (List.mem_cons_self _ _)
    simp only [enqueueRootsLoop]
    simp only [M.run_bind', M.run_get]
    by_cases hq : (s.deps (wf, t)).length = 0
    · rw [M.run_ite, if_pos hq]
      simp only [M.run_bind']
      rw [enqueue_task_ok wf t s hwf htn]
      dsimp only
      obtain ⟨s', hrun, h1, h2, h3, h4, h5, h6, hlog⟩ :=
        ih {s with
              queue := Function.update s.queue wf (t :: s.queue wf),
              enqueueLog := s.enqueueLog ++
                [⟨wf, t, (s.deps (wf, t)).length, (s.tasks (wf, t)).map (·.status)⟩]}
          (fun u h => htne u (List.mem_cons_of_mem _ h))
      refine ⟨s', hrun, h1, h2, h3, h4, h5, h6, ?_⟩
      rw [hlog]
      dsimp only
      have hq' : s.deps (wf, t) = [] := List.length_eq_zero.mp hq
      simp [List.filter_cons, hq', evPair, List.append_assoc]
    · rw [M.run_ite, if_neg hq]
      obtain ⟨s', hrun, h1, h2, h3, h4, h5, h6, hlog⟩ :=
        ih s (fun u h => htne u (List.mem_cons_of_mem _ h))
      refine ⟨s', hrun, h1, h2, h3, h4, h5, h6, ?_⟩
      rw [hlog]
      have hq' : ¬s.deps (wf, t) = [] := fun h => hq (by rw [h]; rfl)
      simp [List.filter_cons, hq']

/-- Run of the dependent loop of `complete_task`, tracking the ghost log:
each dependent has the finished task removed from its dep set and is
enqueued exactly when the removal empties the set; task records keep their
existence, and only the listed dependents' dep sets change. -/
theorem processDependentsLoop_log (wf tsk : String)
    (o : Option (List DataReference)) (ds : List String) (s : Store)
    (hwf : ¬wf = "") (hnodup : ds.Nodup) (hdne : ∀ d ∈ ds, ¬d = "")
    (hex : ∀ d ∈ ds, (s.tasks (wf, d)).isSome = true) :
    ∃ s', processDependentsLoop wf tsk o ds s = (.ok (), s') ∧
      (∀ d ∈ ds, s'.deps (wf, d) = sremL (s.deps (wf, d)) tsk) ∧
      (∀ k, (k.1 = wf → k.2 ∉ ds) → s'.deps k = s.deps k) ∧
      s'.dependents = s.dependents ∧
      (∀ k, (s'.tasks k).isSome = (s.tasks k).isSome) ∧
      s'.workflows = s.workflows ∧
      s'.graphMap = s.graphMap ∧
      s'.taskIndex = s.taskIndex ∧
      s'.enqueueLog.map evPair =
        s.enqueueLog.map evPair ++
          (ds.filter (fun d => decide (sremL (s.deps (wf, d)) tsk = []))).map
            (fun d => (wf, d)) := by
  induction ds generalizing s with
  | nil =>
    exact ⟨s, rfl, by simp, fun _ _ => rfl, rfl, fun _ => rfl, rfl, rfl, rfl, by simp⟩
  | cons d rest ih =>
    have hd : ¬d = "" := hdne d (List.mem_cons_self _ _)
    have hdrest : d ∉ rest := (List.nodup_cons.mp hnodup).1
    have hkne : ∀ k : String × String, (k.1 = wf → k.2 ∉ d :: rest) → k ≠ (wf, d) := by
      intro k hk he
      subst he
      exact hk rfl (List.mem_cons_self _ _)
    have hne' : ∀ d' ∈ rest, ((wf, d') : String × String) ≠ (wf, d) := by
      intro d' hmem he
      rw [Prod.mk.injEq] at he
      rw [he.2] at hmem
      exact hdrest hmem
    have hcont : ∀ sc : Store,
        (∀ k, sc.tasks k = s.tasks k ∨ k = (wf, d) ∧ (sc.tasks k).isSome = true) →
        sc.deps = Function.update s.deps (wf, d) (sremL (s.deps (wf, d)) tsk) →
        sc.dependents = s.dependents →
        sc.workflows = s.workflows →
        sc.graphMap = s.graphMap →
        sc.taskIndex = s.taskIndex →
        sc.enqueueLog.map evPair = s.enqueueLog.map evPair ++
          (if sremL (s.deps (wf, d)) tsk = [] then [(wf, d)] else []) →
        ∃ s', processDependentsLoop wf tsk o rest sc = (.ok (), s') ∧
          (∀ d' ∈ d :: rest, s'.deps (wf, d') = sremL (s.deps (wf, d')) tsk) ∧
          (∀ k, (k.1 = wf → k.2 ∉ d :: rest) → s'.deps k = s.deps k) ∧
          s'.dependents = s.dependents ∧
          (∀ k, (s'.tasks k).isSome = (s.tasks k).isSome) ∧
          s'.workflows = s.workflows ∧
          s'.graphMap = s.graphMap ∧
          s'.taskIndex = s.taskIndex ∧
          s'.enqueueLog.map evPair =
            s.enqueueLog.map evPair ++
              ((d :: rest).filter
                (fun d' => decide (sremL (s.deps (wf, d')) tsk = []))).map
                (fun d' => (wf, d')) := by
      intro sc hT hD hDep hW hG hI hL
      have hTisSome : ∀ k, (sc.tasks k).isSome = (s.tasks k).isSome := by
        intro k
        rcases hT k with h | ⟨hk, hs⟩
        · rw [h]
        · subst hk
          rw [hs]
          rw [hex d (List.mem_cons_self _ _)]
      obtain ⟨s', hrun, hds, hframe, hdep', hisS, hW', hG', hI', hlog⟩ :=
        ih sc (List.nodup_cons.mp hnodup).2
          (fun d' h => hdne d' (List.mem_cons_of_mem _ h))
          (fun d' h => by
            rw [hTisSome (wf, d')]
            exact hex d' (List.mem_cons_of_mem _ h))
      refine ⟨s', hrun, ?_, ?_, by rw [hdep', hDep], ?_, by rw [hW', hW],
        by rw [hG', hG], by rw [hI', hI], ?_⟩
      · intro d' hd'
        rcases List.mem_cons.mp hd' with he | hmem
        · subst he
          rw [hframe (wf, d') (fun _ => hdrest), hD, Function.update_same]
        · rw [hds d' hmem, hD, Function.update_noteq (hne' d' hmem)]
      · intro k hk
        rw [hframe k (fun h hm => hk h (List.mem_cons_of_mem _ hm)), hD,
          Function.update_noteq (hkne k hk)]
      · intro k
        rw [hisS k, hTisSome k]
      · rw [hlog, hL]
        have hfc : ∀ d' ∈ rest,
            (decide (sremL (sc.deps (wf, d')) tsk = [])) =
              (decide (sremL (s.deps (wf, d')) tsk = [])) := by
          intro d' hmem
          rw [hD, Function.update_noteq (hne' d' hmem)]
        rw [List.filter_congr hfc]
        by_cases hq : sremL (s.deps (wf, d)) tsk = [] <;>
          simp [List.filter_cons, hq, List.append_assoc]
    -- run the loop body for `d`
    simp only [processDependentsLoop]
    by_cases hc : outputRefsTruthy o = true
    · obtain ⟨td, htd⟩ := Option.isSome_iff_exists.mp (hex d (List.mem_cons_self _ _))
      rw [M.run_ite, if_pos hc]
      simp only [M.run_bind']
      rw [appendInputRefs_ok wf d (o.getD []) s td hwf hd htd]
      simp only [M.run_modify, M.run_get]
      simp only [Function.update_same]
      by_cases hq : (sremL (s.deps (wf, d)) tsk).length = 0
      · rw [M.run_ite, if_pos hq]
        simp only [M.run_bind']
        rw [enqueue_task_ok wf d _ hwf hd]
        refine hcont _ ?_ rfl rfl rfl rfl rfl ?_
        · intro k
          by_cases hk : k = (wf, d)
          · subst hk
            exact Or.inr ⟨rfl, by simp [Function.update_same]⟩
          · exact Or.inl (by simp [Function.update_noteq hk])
        · have hq' : sremL (s.deps (wf, d)) tsk = [] := List.length_eq_zero.mp hq
          simp [evPair, hq']
      · rw [M.run_ite, if_neg hq]
        refine hcont _ ?_ rfl rfl rfl rfl rfl ?_
        · intro k
          by_cases hk : k = (wf, d)
          · subst hk
            exact Or.inr ⟨rfl, by simp [Function.update_same]⟩
          · exact Or.inl (by simp [Function.update_noteq hk])
        · have hq' : ¬sremL (s.deps (wf, d)) tsk = [] := fun h => hq (by rw [h]; rfl)
          simp [hq']
    · rw [M.run_ite, if_neg hc]
      simp only [M.run_bind', M.run_pure', M.run_modify, M.run_get]
      simp only [Function.update_same]
      by_cases hq : (sremL (s.deps (wf, d)) tsk).length = 0
      · rw [M.run_ite, if_pos hq]
        simp only [M.run_bind']
        rw [enqueue_task_ok wf d _ hwf hd]
        refine hcont _ (fun k => Or.inl rfl) rfl rfl rfl rfl rfl ?_
        have hq' : sremL (s.deps (wf, d)) tsk = [] := List.length_eq_zero.mp hq
        simp [evPair, hq']
      · rw [M.run_ite, if_neg hq]
        refine hcont _ (fun k => Or.inl rfl) rfl rfl rfl rfl rfl ?_
        have hq' : ¬sremL (s.deps (wf, d)) tsk = [] := fun h => hq (by rw [h]; rfl)
        simp [hq']

/-- Removing one element from a complement-filter tightens the
complement. -/
theorem sremL_filter (l C : List String) (p : String) :
    sremL (l.filter (fun x => decide (x ∉ C))) p =
      l.filter (fun x => decide (x ∉ p :: C)) := by
  unfold sremL
  rw [List.filter_filter]
  exact List.filter_congr (fun x _ => by
    by_cases hx : x = p <;> by_cases hc : x ∈ C <;> simp [hx, hc])

/-- A complement-filter ignores an element absent from the list. -/
theorem filter_not_mem_cons (l C : List String) (p : String) (hp : p ∉ l) :
    l.filter (fun x => decide (x ∉ p :: C)) = l.filter (fun x => decide (x ∉ C)) :=
  List.filter_congr (fun x hx => by
    have hxp : x ≠ p := fun he => hp (he ▸ hx)
    simp [List.mem_cons, hxp])

/-- A complement-filter is empty exactly when the list is contained in the
complement's base. -/
theorem filter_not_mem_eq_nil_iff (l C : List String) :
    (l.filter (fun x => decide (x ∉ C)) = []) ↔ l ⊆ C := by
  rw [List.filter_eq_nil_iff]
  constructor
  · intro h x hx
    have := h x hx
    simpa using this
  · intro h x hx
    simpa using h hx

/-- Subsets of an extended complement, when the new element is absent. -/
theorem subset_cons_iff_of_not_mem (l C : List String) (p : String) (hp : p ∉ l) :
    l ⊆ p :: C ↔ l ⊆ C := by
  constructor
  · intro h x hx
    rcases List.mem_cons.mp (h hx) with he | hc
    · exact absurd (he ▸ hx) hp
    · exact hc
  · intro h x hx
    exact List.mem_cons_of_mem _ (h hx)

/-- Occurrences of one element in a filtered duplicate-free list. -/
theorem countP_filter_nodup (l : List String) (h : l.Nodup) (t : String)
    (P : String → Bool) :
    (l.filter P).countP (fun d => decide (d = t)) =
      if t ∈ l ∧ P t then 1 else 0 := by
  induction l with
  | nil => simp
  | cons a l ih =>
    have hnd := List.nodup_cons.mp h
    have ihl := ih hnd.2
    by_cases hat : a = t
    · subst hat
      have hnt : a ∉ l := hnd.1
      by_cases hPa : P a = true
      · simp [List.filter_cons, hPa, List.countP_cons, ihl, hnt]
      · simp [List.filter_cons, hPa, ihl, hnt]
    · have hta : ¬t = a := fun he => hat he.symm
      by_cases hPa : P a = true
      · simp [List.filter_cons, hPa, List.countP_cons, ihl, hat, hta, List.mem_cons]
      · simp [List.filter_cons, hPa, ihl, hta, List.mem_cons]

/-- `countEnq` read off the mapped ghost log. -/
theorem countEnq_eq (s : Store) (wf t : String) :
    countEnq s wf t =
      (s.enqueueLog.map evPair).countP (fun q => decide (q = (wf, t))) := rfl

/-- Occurrences of a pair in a list of pairs built from one workflow. -/
theorem countP_map_fixed_wf (wf t : String) (l : List String) :
    (l.map (fun u => (wf, u))).countP
        (fun q : String × String => decide (q = (wf, t))) =
      l.countP (fun d => decide (d = t)) := by
  rw [List.countP_map]
  exact List.countP_congr (fun d _ => by simp [Function.comp, Prod.mk.injEq])

/-- Filtering by non-membership in the empty list keeps everything. -/
theorem filter_not_mem_nil (l : List String) :
    l.filter (fun x => decide (x ∉ ([] : List String))) = l := by
  simp

/-- `getTasksOf` succeeds when every listed id names an existing record. -/
theorem getTasksOf_ok (wf : String) (ids : List String) (s : Store)
    (hwf : ¬wf = "")
    (hids : ∀ i ∈ ids, ¬i = "" ∧ (s.tasks (wf, i)).isSome = true) :
    ∃ ts, (getTasksOf wf ids s).1 = .ok ts := by
  induction ids with
  | nil => exact ⟨[], rfl⟩
  | cons i rest ih =>
    obtain ⟨hine, hisome⟩ := hids i (List.mem_cons_self _ _)
    obtain ⟨t, ht⟩ := Option.isSome_iff_exists.mp hisome
    obtain ⟨ts, hts⟩ := ih (fun j hj => hids j (List.mem_cons_of_mem _ hj))
    refine ⟨t :: ts, ?_⟩
    simp only [getTasksOf]
    rw [M.fst_bind, get_task_store]
    have hgt : (get_task wf i s).1 = .ok t := by simp [get_task, hwf, hine, ht]
    rw [hgt]
    dsimp only
    rw [M.fst_bind, getTasksOf_store, hts]
    dsimp only
    rfl

/-- `get_workflow_tasks` succeeds when the workflow record exists and every
indexed id names an existing record. -/
theorem get_workflow_tasks_ok (wf : String) (s : Store) (hwf : ¬wf = "")
    (hw : (s.workflows wf).isSome = true)
    (hids : ∀ i ∈ s.taskIndex wf, ¬i = "" ∧ (s.tasks (wf, i)).isSome = true) :
    ∃ ts, (get_workflow_tasks wf s).1 = .ok ts := by
  obtain ⟨w, hwsome⟩ := Option.isSome_iff_exists.mp hw
  obtain ⟨ts, hts⟩ := getTasksOf_ok wf (s.taskIndex wf) s hwf hids
  refine ⟨sortByCreated ts, ?_⟩
  unfold get_workflow_tasks
  simp only [M.run_ite, hwf, if_false]
  rw [M.fst_bind, get_workflow_store]
  have hgw : (get_workflow wf s).1 = .ok w := by simp [get_workflow, hwf, hwsome]
  rw [hgw]
  dsimp only
  rw [M.fst_bind]
  simp only [M.run_get]
  rw [M.fst_bind, getTasksOf_store, hts]
  dsimp only
  rfl

/-- `_all_tasks_completed` succeeds under the same conditions. -/
theorem allTasksCompleted_ok (wf : String) (s : Store) (hwf : ¬wf = "")
    (hw : (s.workflows wf).isSome = true)
    (hids : ∀ i ∈ s.taskIndex wf, ¬i = "" ∧ (s.tasks (wf, i)).isSome = true) :
    ∃ b, (allTasksCompleted wf s).1 = .ok b := by
  obtain ⟨ts, hts⟩ := get_workflow_tasks_ok wf s hwf hw hids
  refine ⟨ts.all (fun t => t.status = .completed), ?_⟩
  unfold allTasksCompleted
  rw [M.fst_bind, get_workflow_tasks_store, hts]
  dsimp only
  rfl

/-- `start_workflow` on a freshly initialized store succeeds and
establishes the enqueue-count invariant with an empty completed set: each
root task is enqueued exactly once, every other task not at all. -/
theorem C3Inv_start (wf : String) (tids : List String)
    (origDeps origDependents : String → List String) (s : Store)
    (hinit : C3Init wf tids origDeps origDependents s) :
    ∃ s', start_workflow wf s = (.ok (), s') ∧
      C3Inv wf tids origDeps origDependents [] s' := by
  have hwf := hinit.wf_ne
  obtain ⟨w, hw⟩ := Option.isSome_iff_exists.mp hinit.wf_some
  unfold start_workflow
  simp only [M.run_ite, hwf, if_false]
  simp only [M.run_bind']
  rw [update_workflow_status_ok wf .running none s w hwf hw]
  dsimp only
  simp only [M.run_get]
  obtain ⟨s', hrun, hdeps, hdept, htasks, hwfl, hgm, hti, hlog⟩ :=
    enqueueRootsLoop_spec wf tids
      ({s with clock := s.clock + 1, workflows := Function.update s.workflows wf (some {w with status := .running, updated_at := s.clock, error := none})} : Store)
      hwf hinit.tid_ne
  rw [show ({s with clock := s.clock + 1, workflows := Function.update s.workflows wf (some {w with status := .running, updated_at := s.clock, error := none})} : Store).graphMap = s.graphMap from rfl,
    hinit.graph_vals, hrun]
  refine ⟨s', rfl, ?_⟩
  have hdeps' : s'.deps = s.deps := hdeps
  have hdept' : s'.dependents = s.dependents := hdept
  have htasks' : s'.tasks = s.tasks := htasks
  have hti' : s'.taskIndex = s.taskIndex := hti
  refine
    { wf_ne := hwf
      tid_ne := hinit.tid_ne
      dependents_sub := hinit.dependents_sub
      dependents_nodup := hinit.dependents_nodup
      consistent := hinit.consistent
      deps_eq := ?_
      dependents_eq := ?_
      tasks_some := ?_
      wf_some := ?_
      index_ok := ?_
      count_eq := ?_ }
  · intro t ht
    rw [hdeps', hinit.deps_eq t ht, filter_not_mem_nil]
  · intro t ht
    rw [hdept']
    exact hinit.dependents_eq t ht
  · intro t ht
    rw [htasks']
    exact hinit.tasks_some t ht
  · rw [hwfl]
    show (Function.update s.workflows wf _ wf).isSome = true
    rw [Function.update_same]
    rfl
  · intro i hi
    rw [hti'] at hi
    obtain ⟨h1, h2⟩ := hinit.index_ok i hi
    rw [htasks']
    exact ⟨h1, h2⟩
  · intro t ht
    rw [countEnq_eq, hlog]
    rw [show ({s with clock := s.clock + 1, workflows := Function.update s.workflows wf (some {w with status := .running, updated_at := s.clock, error := none})} : Store).enqueueLog = s.enqueueLog from rfl,
      hinit.log_empty]
    simp only [List.map_nil, List.nil_append]
    have hfc : ∀ u ∈ tids,
        (decide ((({s with clock := s.clock + 1, workflows := Function.update s.workflows wf (some {w with status := .running, updated_at := s.clock, error := none})} : Store).deps (wf, u)).length = 0)) =
          (decide ((origDeps u).length = 0)) := by
      intro u hu
      rw [show ({s with clock := s.clock + 1, workflows := Function.update s.workflows wf (some {w with status := .running, updated_at := s.clock, error := none})} : Store).deps = s.deps from rfl, hinit.deps_eq u hu]
    rw [List.filter_congr hfc, countP_map_fixed_wf,
      countP_filter_nodup tids hinit.tids_nodup t _]
    by_cases h0 : origDeps t = []
    · rw [if_pos ⟨ht, by rw [h0]; rfl⟩,
        if_pos (by rw [h0]; exact fun x hx => absurd hx (List.not_mem_nil x))]
    · rw [if_neg ?_, if_neg ?_]
      · intro hsub
        exact h0 (List.subset_nil.mp hsub)
      · rintro ⟨-, hlen⟩
        exact h0 (List.length_eq_zero.mp (by simpa using hlen))

/-- `complete_task` on a not-yet-completed task of the workflow succeeds
and advances the enqueue-count invariant: the completed set gains `p`, and
exactly the dependents whose last remaining dependency was `p` get their
single enqueue. -/
theorem C3Inv_complete (wf : String) (tids : List String)
    (origDeps origDependents : String → List String) (C : List String)
    (p : String) (o : Option (List DataReference)) (s : Store)
    (hinv : C3Inv wf tids origDeps origDependents C s)
    (hp : p ∈ tids) (hpC : p ∉ C) :
    ∃ r s', complete_task wf p o s = (.ok r, s') ∧
      C3Inv wf tids origDeps origDependents (p :: C) s' := by
  have hwf := hinv.wf_ne
  have hpne := hinv.tid_ne p hp
  obtain ⟨tp, htp⟩ := Option.isSome_iff_exists.mp (hinv.tasks_some p hp)
  obtain ⟨r0, hupd⟩ : ∃ r0, update_task_status wf p .completed o none s =
      (.ok r0, {s with clock := s.clock + 1, tasks := Function.update s.tasks (wf, p) (some r0)}) :=
    ⟨_, update_task_status_ok wf p .completed o none s tp hwf hpne htp⟩
  have hS1some : ∀ k, (s.tasks k).isSome = true → (({s with clock := s.clock + 1, tasks := Function.update s.tasks (wf, p) (some r0)} : Store).tasks k).isSome = true := by
    intro k hk
    by_cases hkp : k = (wf, p)
    · subst hkp
      show (Function.update s.tasks (wf, p) (some r0) (wf, p)).isSome = true
      rw [Function.update_same]
      rfl
    · show (Function.update s.tasks (wf, p) (some r0) k).isSome = true
      rw [Function.update_noteq hkp]
      exact hk
  have hdne : ∀ d ∈ origDependents p, ¬d = "" :=
    fun d hd => hinv.tid_ne d (hinv.dependents_sub p hp hd)
  obtain ⟨s2, hrun2, hdeps2, hframe2, hdep2, hisS2, hwfl2, hgm2, hti2, hlog2⟩ :=
    processDependentsLoop_log wf p o (origDependents p) ({s with clock := s.clock + 1, tasks := Function.update s.tasks (wf, p) (some r0)} : Store) hwf
      (hinv.dependents_nodup p hp) hdne
      (fun d hd => hS1some (wf, d) (hinv.tasks_some d (hinv.dependents_sub p hp hd)))
  have hs2somewf : (s2.workflows wf).isSome = true := by
    rw [hwfl2]
    exact hinv.wf_some
  have hidx2 : ∀ i ∈ s2.taskIndex wf, ¬i = "" ∧ (s2.tasks (wf, i)).isSome = true := by
    intro i hi
    rw [hti2] at hi
    obtain ⟨h1, h2⟩ := hinv.index_ok i hi
    exact ⟨h1, by rw [hisS2]; exact hS1some _ h2⟩
  have hinv2 : C3Inv wf tids origDeps origDependents (p :: C) s2 := by
    refine
      { wf_ne := hwf
        tid_ne := hinv.tid_ne
        dependents_sub := hinv.dependents_sub
        dependents_nodup := hinv.dependents_nodup
        consistent := hinv.consistent
        deps_eq := ?_
        dependents_eq := ?_
        tasks_some := ?_
        wf_some := hs2somewf
        index_ok := hidx2
        count_eq := ?_ }
    · intro t ht
      by_cases hd : t ∈ origDependents p
      · rw [hdeps2 t hd]
        rw [show ({s with clock := s.clock + 1, tasks := Function.update s.tasks (wf, p) (some r0)} : Store).deps = s.deps from rfl, hinv.deps_eq t ht, sremL_filter]
      · rw [hframe2 (wf, t) (fun _ => hd)]
        rw [show ({s with clock := s.clock + 1, tasks := Function.update s.tasks (wf, p) (some r0)} : Store).deps = s.deps from rfl, hinv.deps_eq t ht]
        have hpn : p ∉ origDeps t := fun hmem => hd ((hinv.consistent p hp t ht).mpr hmem)
        exact (filter_not_mem_cons (origDeps t) C p hpn).symm
    · intro t ht
      rw [hdep2]
      exact hinv.dependents_eq t ht
    · intro t ht
      rw [hisS2]
      exact hS1some (wf, t) (hinv.tasks_some t ht)
    · intro t ht
      rw [countEnq_eq, hlog2, List.countP_append]
      rw [show ({s with clock := s.clock + 1, tasks := Function.update s.tasks (wf, p) (some r0)} : Store).enqueueLog = s.enqueueLog from rfl]
      rw [← countEnq_eq s wf t, hinv.count_eq t ht]
      rw [countP_map_fixed_wf,
        countP_filter_nodup (origDependents p) (hinv.dependents_nodup p hp) t _]
      simp only [decide_eq_true_eq]
      rw [show ({s with clock := s.clock + 1, tasks := Function.update s.tasks (wf, p) (some r0)} : Store).deps = s.deps from rfl, hinv.deps_eq t ht, sremL_filter]
      simp only [filter_not_mem_eq_nil_iff]
      by_cases hC : origDeps t ⊆ C
      · have hpc : origDeps t ⊆ p :: C := fun x hx => List.mem_cons_of_mem _ (hC hx)
        have h2 : ¬(t ∈ origDependents p ∧ origDeps t ⊆ p :: C) := by
          rintro ⟨hdep, -⟩
          exact hpC (hC ((hinv.consistent p hp t ht).mp hdep))
        rw [if_pos hC, if_neg h2, if_pos hpc]
      · rw [if_neg hC]
        by_cases hpc : origDeps t ⊆ p :: C
        · have hpd : p ∈ origDeps t := by
            by_contra hpn
            exact hC ((subset_cons_iff_of_not_mem _ _ _ hpn).mp hpc)
          have hdep : t ∈ origDependents p := (hinv.consistent p hp t ht).mpr hpd
          rw [if_pos ⟨hdep, hpc⟩, if_pos hpc]
        · have h2 : ¬(t ∈ origDependents p ∧ origDeps t ⊆ p :: C) := by
            rintro ⟨-, hs⟩
            exact hpc hs
          rw [if_neg h2, if_neg hpc]
  -- run the program
  unfold complete_task
  simp only [M.run_ite, hwf, hpne, if_false]
  simp only [M.run_bind']
  rw [hupd]
  dsimp only
  simp only [M.run_get]
  rw [show ({s with clock := s.clock + 1, tasks := Function.update s.tasks (wf, p) (some r0)} : Store).dependents = s.dependents from rfl, hinv.dependents_eq p hp, hrun2]
  dsimp only
  obtain ⟨b, hb⟩ := allTasksCompleted_ok wf s2 hwf hs2somewf hidx2
  have hpair : allTasksCompleted wf s2 = (.ok b, s2) := by
    have h2 := allTasksCompleted_store wf s2
    cases hAC : allTasksCompleted wf s2 with
    | mk r1 st1 =>
      rw [hAC] at hb h2
      dsimp only at hb h2
      rw [hb, h2]
  rw [hpair]
  dsimp only
  cases b with
  | false =>
    rw [M.run_ite, if_neg Bool.false_ne_true]
    simp only [M.run_pure']
    exact ⟨r0, s2, rfl, hinv2⟩
  | true =>
    rw [M.run_ite, if_pos rfl]
    simp only [M.run_bind']
    obtain ⟨w2, hw2⟩ := Option.isSome_iff_exists.mp hs2somewf
    rw [update_workflow_status_ok wf .completed none s2 w2 hwf hw2]
    dsimp only
    simp only [M.run_pure']
    refine ⟨r0, _, rfl,
      { wf_ne := hinv2.wf_ne
        tid_ne := hinv2.tid_ne
        dependents_sub := hinv2.dependents_sub
        dependents_nodup := hinv2.dependents_nodup
        consistent := hinv2.consistent
        deps_eq := hinv2.deps_eq
        dependents_eq := hinv2.dependents_eq
        tasks_some := hinv2.tasks_some
        wf_some := by simp
        index_ok := hinv2.index_ok
        count_eq := hinv2.count_eq }⟩

/-- The enqueue-count invariant is maintained by any sequence of
`complete_task` calls on pairwise-distinct, not-yet-completed tasks. -/
theorem C3Inv_runCompletes (wf : String) (tids : List String)
    (origDeps origDependents : String → List String) (C : List String)
    (ps : List (String × Option (List DataReference))) (s : Store)
    (hinv : C3Inv wf tids origDeps origDependents C s)
    (hmem : ∀ q ∈ ps, q.1 ∈ tids)
    (hnodup : (ps.map Prod.fst).Nodup)
    (hnotC : ∀ q ∈ ps, q.1 ∉ C) :
    ∃ s', runCompletes wf ps s = (.ok (), s') ∧
      C3Inv wf tids origDeps origDependents ((ps.map Prod.fst).reverse ++ C) s' := by
  induction ps generalizing C s with
  | nil => exact ⟨s, rfl, by simpa using hinv⟩
  | cons q rest ih =>
    obtain ⟨p, o⟩ := q
    have hnodup' : (p :: rest.map Prod.fst).Nodup := by simpa using hnodup
    obtain ⟨r, s1, hrun1, hinv1⟩ :=
      C3Inv_complete wf tids origDeps origDependents C p o s hinv
        (hmem _ (List.mem_cons_self _ _)) (hnotC _ (List.mem_cons_self _ _))
    obtain ⟨s', hrun', hinv'⟩ :=
      ih (p :: C) s1 hinv1
        (fun q hq => hmem q (List.mem_cons_of_mem _ hq))
        (List.nodup_cons.mp hnodup').2
        (fun q hq hqmem => by
          rcases List.mem_cons.mp hqmem with he | hc
          · exact (List.nodup_cons.mp hnodup').1
              (he ▸ List.mem_map_of_mem Prod.fst hq)
          · exact hnotC q (List.mem_cons_of_mem _ hq) hc)
    refine ⟨s', ?_, ?_⟩
    · simp only [runCompletes]
      simp only [M.run_bind']
      rw [hrun1]
      dsimp only
      exact hrun'
    · have hCeq : ((⟨p, o⟩ :: rest :
          List (String × Option (List DataReference))).map Prod.fst).reverse ++ C =
            (rest.map Prod.fst).reverse ++ (p :: C) := by
        simp
      rw [hCeq]
      exact hinv'

/-- **C3, counterexample** to the unrestricted at-most-once half: calling
`start_workflow` twice on the same initialized workflow (a legal sequence
of the quantified engine operations — the source has no started-guard)
enqueues the still-`pending` root task twice: the ghost log holds two
enqueue events for it, both recorded while its persisted status was
`pending`, and it is still `pending` afterwards. -/
theorem C3_enqueue_discipline_counterexample :
    ((c3DoubleStart.enqueueLog.filter
        (fun ev => decide (ev.task_id = "task_aaaaaaaa" ∧
          ev.task_status = some .pending))).length = 2) ∧
    (c3DoubleStart.tasks ("wf-1", "task_aaaaaaaa")).map (fun t => t.status) =
      some .pending := by
  exact ⟨by decide, by decide⟩

/-- **C3** (amended).  The remaining-deps half of the claim holds
unconditionally: every enqueue performed by `start_workflow` or
`complete_task` is recorded at a moment when the task's remaining
dependency set is empty (the ghost log only ever holds zero-remaining
events).  The at-most-once half holds for well-formed operation sequences
(it fails for arbitrary ones, see the counterexample): starting a freshly
initialized workflow once and then completing any pairwise-distinct tasks
of it enqueues every task at most once. -/
theorem C3_enqueue_discipline :
    (∀ wf s, ZeroLog s → ZeroLog ((start_workflow wf) s).2) ∧
    (∀ wf t o s, ZeroLog s → ZeroLog ((complete_task wf t o) s).2) ∧
    (∀ wf tids origDeps origDependents s ps,
      C3Init wf tids origDeps origDependents s →
      (∀ q ∈ ps, q.1 ∈ tids) →
      (ps.map Prod.fst).Nodup →
      ∃ s', (start_workflow wf >>= fun _ => runCompletes wf ps) s = (.ok (), s') ∧
        ∀ t ∈ tids, countEnq s' wf t ≤ 1) := by
  refine ⟨zeroLog_start_workflow, zeroLog_complete_task, ?_⟩
  intro wf tids origDeps origDependents s ps hinit hmem hnodup
  obtain ⟨s1, hrun1, hinv1⟩ := C3Inv_start wf tids origDeps origDependents s hinit
  obtain ⟨s', hrun', hinv'⟩ :=
    C3Inv_runCompletes wf tids origDeps origDependents [] ps s1 hinv1 hmem hnodup
      (fun q _ => List.not_mem_nil q.1)
  refine ⟨s', ?_, ?_⟩
  · simp only [M.run_bind']
    rw [hrun1]
    dsimp only
    exact hrun'
  · intro t ht
    rw [hinv'.count_eq t ht]
    split
    · exact le_refl 1
    · exact Nat.zero_le 1

/-- Witness for C3: the single-task workflow, started once and completed
once. -/
theorem C3_enqueue_discipline_witness :
    ∃ s', (start_workflow "wf-1" >>= fun _ =>
        runCompletes "wf-1" [("task_aaaaaaaa", none)]) c3StartStore =
          (.ok (), s') ∧
      ∀ t ∈ ["task_aaaaaaaa"], countEnq s' "wf-1" t ≤ 1 :=
  C3_enqueue_discipline.2.2 "wf-1" ["task_aaaaaaaa"] (fun _ => []) (fun _ => [])
    c3StartStore [("task_aaaaaaaa", none)]
    { wf_ne := by decide
      tid_ne := by decide
      tids_nodup := by decide
      graph_vals := by decide
      dependents_sub := by decide
      dependents_nodup := by decide
      consistent := by decide
      deps_eq := by decide
      dependents_eq := by decide
      tasks_some := by decide
      wf_some := by decide
      index_ok := by decide
      log_empty := by decide }
    (by decide) (by decide)

/-- Membership in a set after `SADD`. -/
theorem mem_saddL (l : List String) (x y : String) :
    y ∈ saddL l x ↔ y = x ∨ y ∈ l := by
  unfold saddL
  by_cases h : x ∈ l
  · rw [if_pos h]
    constructor
    · exact Or.inr
    · rintro (rfl | hy)
      · exact h
      · exact hy
  · rw [if_neg h]
    simp [List.mem_append, or_comm]

/-- `SADD` only grows the set. -/
theorem subset_saddL (l : List String) (x : String) : l ⊆ saddL l x :=
  fun y hy => (mem_saddL l x y).mpr (Or.inr hy)

/-- Decomposing a reachability path at its first step. -/
theorem reaches_head {adj : String → List String} {a c : String}
    (h : Reaches adj a c) : a = c ∨ ∃ y ∈ adj a, Reaches adj y c := by
  induction h with
  | refl => exact Or.inl rfl
  | tail hab hc ih =>
    rcases ih with rfl | ⟨y, hy, hyb⟩
    · exact Or.inr ⟨_, hc, Reaches.refl _⟩
    · exact Or.inr ⟨y, hy, Reaches.tail hyb hc⟩

/-- Filters by a weaker predicate are at least as long. -/
theorem length_filter_mono (l : List String) (p q : String → Bool)
    (h : ∀ x, p x = true → q x = true) :
    (l.filter p).length ≤ (l.filter q).length := by
  induction l with
  | nil => exact le_refl 0
  | cons a l ih =>
    by_cases hp : p a = true
    · rw [List.filter_cons_of_pos hp, List.filter_cons_of_pos (h a hp)]
      exact Nat.succ_le_succ ih
    · rw [List.filter_cons_of_neg (by simpa using hp)]
      by_cases hq : q a = true
      · rw [List.filter_cons_of_pos hq]
        exact le_trans ih (Nat.le_succ _)
      · rw [List.filter_cons_of_neg (by simpa using hq)]
        exact ih

/-- Growing the visited set shrinks the unvisited remainder. -/
theorem length_filter_not_mem_mono (U vis vis' : List String) (h : vis ⊆ vis') :
    (U.filter (fun x => decide (x ∉ vis'))).length ≤
      (U.filter (fun x => decide (x ∉ vis))).length :=
  length_filter_mono U _ _ (fun x hx => by
    simp only [decide_eq_true_eq] at hx ⊢
    exact fun hmem => hx (h hmem))

/-- Visiting a fresh key of the universe strictly shrinks the unvisited
remainder. -/
theorem length_filter_saddL_lt (U vis : List String) (u : String)
    (hu : u ∈ U) (hv : u ∉ vis) :
    (U.filter (fun x => decide (x ∉ saddL vis u))).length <
      (U.filter (fun x => decide (x ∉ vis))).length := by
  induction U with
  | nil => cases hu
  | cons a U ih =>
    by_cases ha : a = u
    · rw [List.filter_cons_of_neg (by simp [mem_saddL, ha]),
        List.filter_cons_of_pos (by simp [ha, hv])]
      exact Nat.lt_succ_of_le (length_filter_not_mem_mono U vis (saddL vis u)
        (subset_saddL vis u))
    · have hu' : u ∈ U := by
        rcases List.mem_cons.mp hu with h | h
        · exact absurd h.symm ha
        · exact h
      by_cases hav : a ∈ vis
      · rw [List.filter_cons_of_neg (by simp [mem_saddL, hav]),
          List.filter_cons_of_neg (by simpa using hav)]
        exact ih hu'
      · rw [List.filter_cons_of_pos (by simp [mem_saddL, hav, ha]),
          List.filter_cons_of_pos (by simpa using hav)]
        exact Nat.succ_lt_succ (ih hu')

/-- The DFS only ever grows the visited set (both entry points, any
result). -/
theorem dfs_mono (adj : String → List String) : ∀ fuel : Nat,
    (∀ u vis st b vis', visit adj fuel u vis st = some (b, vis') → vis ⊆ vis') ∧
    (∀ vs vis stk b vis', visitList adj fuel vs vis stk = some (b, vis') →
      vis ⊆ vis') := by
  intro fuel
  induction fuel with
  | zero =>
    constructor
    · intro u vis st b vis' h
      simp [visit] at h
    · intro vs
      induction vs with
      | nil =>
        intro vis stk b vis' h
        simp only [visitList, Option.some.injEq, Prod.mk.injEq] at h
        rw [← h.2]
        exact fun x hx => hx
      | cons v vs ih =>
        intro vis stk b vis' h
        simp only [visitList] at h
        by_cases hvin : v ∈ vis
        · rw [if_pos hvin] at h
          by_cases hstk : v ∈ stk
          · rw [if_pos hstk] at h
            simp only [Option.some.injEq, Prod.mk.injEq] at h
            rw [← h.2]
            exact fun x hx => hx
          · rw [if_neg hstk] at h
            exact ih vis stk b vis' h
        · rw [if_neg hvin] at h
          simp [visit] at h
  | succ n ihn =>
    have hv : ∀ u vis st b vis', visit adj (n + 1) u vis st = some (b, vis') →
        vis ⊆ vis' := by
      intro u vis st b vis' h
      simp only [visit] at h
      exact (subset_saddL vis u).trans (ihn.2 (adj u) (saddL vis u) (saddL st u) b vis' h)
    refine ⟨hv, ?_⟩
    intro vs
    induction vs with
    | nil =>
      intro vis stk b vis' h
      simp only [visitList, Option.some.injEq, Prod.mk.injEq] at h
      rw [← h.2]
      exact fun x hx => hx
    | cons v vs ih =>
      intro vis stk b vis' h
      simp only [visitList] at h
      by_cases hvin : v ∈ vis
      · rw [if_pos hvin] at h
        by_cases hstk : v ∈ stk
        · rw [if_pos hstk] at h
          simp only [Option.some.injEq, Prod.mk.injEq] at h
          rw [← h.2]
          exact fun x hx => hx
        · rw [if_neg hstk] at h
          exact ih vis stk b vis' h
      · rw [if_neg hvin] at h
        cases hv0 : visit adj (n + 1) v vis stk with
        | none => rw [hv0] at h; cases h
        | some p =>
          obtain ⟨b0, vis''⟩ := p
          rw [hv0] at h
          cases b0 with
          | true =>
            simp only [Option.some.injEq, Prod.mk.injEq] at h
            rw [← h.2]
            exact hv v vis stk true vis'' hv0
          | false =>
            exact (hv v vis stk false vis'' hv0).trans (ih vis'' stk b vis' h)

/-- With every reachable key drawn from a finite universe `U`, fuel
exceeding the number of unvisited keys cannot run out. -/
theorem dfs_fuel (adj : String → List String) (U : List String)
    (hadj : ∀ x, ∀ y ∈ adj x, y ∈ U) : ∀ fuel : Nat,
    (∀ u vis st, u ∈ U → u ∉ vis →
      (U.filter (fun x => decide (x ∉ vis))).length ≤ fuel →
      visit adj fuel u vis st ≠ none) ∧
    (∀ vs vis stk, (∀ v ∈ vs, v ∈ U) →
      (U.filter (fun x => decide (x ∉ vis))).length ≤ fuel →
      visitList adj fuel vs vis stk ≠ none) := by
  intro fuel
  induction fuel with
  | zero =>
    constructor
    · intro u vis st hu hvv hc
      have hmem : u ∈ U.filter (fun x => decide (x ∉ vis)) :=
        List.mem_filter.mpr ⟨hu, by simpa using hvv⟩
      have := List.length_pos_of_mem hmem
      omega
    · intro vs
      induction vs with
      | nil =>
        intro vis stk h1 h2
        simp [visitList]
      | cons v vs ih =>
        intro vis stk hvs hc
        simp only [visitList]
        by_cases hvin : v ∈ vis
        · rw [if_pos hvin]
          by_cases hstk : v ∈ stk
          · rw [if_pos hstk]
            simp
          · rw [if_neg hstk]
            exact ih vis stk (fun x hx => hvs x (List.mem_cons_of_mem _ hx)) hc
        · rw [if_neg hvin]
          have hmem : v ∈ U.filter (fun x => decide (x ∉ vis)) :=
            List.mem_filter.mpr ⟨hvs v (List.mem_cons_self _ _), by simpa using hvin⟩
          have := List.length_pos_of_mem hmem
          omega
  | succ n ihn =>
    have hvt : ∀ u vis st, u ∈ U → u ∉ vis →
        (U.filter (fun x => decide (x ∉ vis))).length ≤ n + 1 →
        visit adj (n + 1) u vis st ≠ none := by
      intro u vis st hu hvv hc
      simp only [visit]
      apply ihn.2 (adj u) (saddL vis u) (saddL st u) (hadj u)
      have hlt := length_filter_saddL_lt U vis u hu hvv
      omega
    refine ⟨hvt, ?_⟩
    intro vs
    induction vs with
    | nil =>
      intro vis stk h1 h2
      simp [visitList]
    | cons v vs ih =>
      intro vis stk hvs hc
      simp only [visitList]
      by_cases hvin : v ∈ vis
      · rw [if_pos hvin]
        by_cases hstk : v ∈ stk
        · rw [if_pos hstk]
          simp
        · rw [if_neg hstk]
          exact ih vis stk (fun x hx => hvs x (List.mem_cons_of_mem _ hx)) hc
      · rw [if_neg hvin]
        cases hv0 : visit adj (n + 1) v vis stk with
        | none =>
          exact absurd hv0 (hvt v vis stk (hvs v (List.mem_cons_self _ _)) hvin hc)
        | some p =>
          obtain ⟨b0, vis''⟩ := p
          cases b0 with
          | true => simp
          | false =>
            have hsub := (dfs_mono adj (n + 1)).1 v vis stk false vis'' hv0
            dsimp only
            exact ih vis'' stk (fun x hx => hvs x (List.mem_cons_of_mem _ hx))
              (le_trans (length_filter_not_mem_mono U vis vis'' hsub) hc)

/-- Soundness of the DFS: a `true` answer exhibits a cycle reachable from
the root `r`, provided the grey stack really is a chain of ancestors of
the node under scan. -/
theorem dfs_true_cycle (adj : String → List String) (r : String) : ∀ fuel : Nat,
    (∀ u vis st vis',
      visit adj fuel u vis st = some (true, vis') →
      (∀ x ∈ st, Reaches adj x u) → Reaches adj r u →
      (∀ x ∈ st, Reaches adj r x) →
      ∃ c, Reaches adj r c ∧ CycleAt adj c) ∧
    (∀ vs u vis stk vis',
      visitList adj fuel vs vis stk = some (true, vis') →
      (∀ v ∈ vs, v ∈ adj u) → u ∈ stk →
      (∀ x ∈ stk, Reaches adj x u) → Reaches adj r u →
      (∀ x ∈ stk, Reaches adj r x) →
      ∃ c, Reaches adj r c ∧ CycleAt adj c) := by
  have hstep : ∀ fuel,
      (∀ vs u vis stk vis',
        visitList adj fuel vs vis stk = some (true, vis') →
        (∀ v ∈ vs, v ∈ adj u) → u ∈ stk →
        (∀ x ∈ stk, Reaches adj x u) → Reaches adj r u →
        (∀ x ∈ stk, Reaches adj r x) →
        ∃ c, Reaches adj r c ∧ CycleAt adj c) →
      (∀ u vis st vis',
        visit adj (fuel + 1) u vis st = some (true, vis') →
        (∀ x ∈ st, Reaches adj x u) → Reaches adj r u →
        (∀ x ∈ st, Reaches adj r x) →
        ∃ c, Reaches adj r c ∧ CycleAt adj c) := by
    intro fuel ihl u vis st vis' h hst hru hrst
    simp only [visit] at h
    refine ihl (adj u) u (saddL vis u) (saddL st u) vis' h (fun v hv => hv)
      ((mem_saddL st u u).mpr (Or.inl rfl)) ?_ hru ?_
    · intro x hx
      rcases (mem_saddL st u x).mp hx with rfl | hx'
      · exact Reaches.refl x
      · exact hst x hx'
    · intro x hx
      rcases (mem_saddL st u x).mp hx with rfl | hx'
      · exact hru
      · exact hrst x hx'
  intro fuel
  induction fuel with
  | zero =>
    have hl : ∀ vs u vis stk vis',
        visitList adj 0 vs vis stk = some (true, vis') →
        (∀ v ∈ vs, v ∈ adj u) → u ∈ stk →
        (∀ x ∈ stk, Reaches adj x u) → Reaches adj r u →
        (∀ x ∈ stk, Reaches adj r x) →
        ∃ c, Reaches adj r c ∧ CycleAt adj c := by
      intro vs
      induction vs with
      | nil =>
        intro u vis stk vis' h
        simp [visitList] at h
      | cons v vs ih =>
        intro u vis stk vis' h hvs hustk hstk hru hrstk
        simp only [visitList] at h
        by_cases hvin : v ∈ vis
        · rw [if_pos hvin] at h
          by_cases hstkv : v ∈ stk
          · exact ⟨u, hru, v, hvs v (List.mem_cons_self _ _), hstk v hstkv⟩
          · rw [if_neg hstkv] at h
            exact ih u vis stk vis' h (fun x hx => hvs x (List.mem_cons_of_mem _ hx))
              hustk hstk hru hrstk
        · rw [if_neg hvin] at h
          simp [visit] at h
    exact ⟨fun u vis st vis' h => absurd h (by simp [visit]), hl⟩
  | succ n ihn =>
    have hv := hstep n ihn.2
    refine ⟨hv, ?_⟩
    intro vs
    induction vs with
    | nil =>
      intro u vis stk vis' h
      simp [visitList] at h
    | cons v vs ih =>
      intro u vis stk vis' h hvs hustk hstk hru hrstk
      simp only [visitList] at h
      by_cases hvin : v ∈ vis
      · rw [if_pos hvin] at h
        by_cases hstkv : v ∈ stk
        · exact ⟨u, hru, v, hvs v (List.mem_cons_self _ _), hstk v hstkv⟩
        · rw [if_neg hstkv] at h
          exact ih u vis stk vis' h (fun x hx => hvs x (List.mem_cons_of_mem _ hx))
            hustk hstk hru hrstk
      · rw [if_neg hvin] at h
        cases hv0 : visit adj (n + 1) v vis stk with
        | none =>
          rw [hv0] at h
          cases h
        | some p =>
          obtain ⟨b0, vis''⟩ := p
          rw [hv0] at h
          cases b0 with
          | true =>
            refine hv v vis stk vis'' hv0 ?_ ?_ ?_
            · intro x hx
              exact Reaches.tail (hstk x hx) (hvs v (List.mem_cons_self _ _))
            · exact Reaches.tail hru (hvs v (List.mem_cons_self _ _))
            · exact hrstk
          | false =>
            dsimp only at h
            exact ih u vis'' stk vis' h (fun x hx => hvs x (List.mem_cons_of_mem _ hx))
              hustk hstk hru hrstk

/-- Completeness invariant of the DFS: a `false` answer certifies that
every black node (visited, not on the grey stack) — in particular the node
just finished — has no reachable cycle. -/
theorem dfs_false_clean (adj : String → List String) : ∀ fuel : Nat,
    (∀ u vis st vis',
      visit adj fuel u vis st = some (false, vis') →
      st ⊆ vis → u ∉ vis →
      (∀ x ∈ vis, x ∉ st → Clean adj x) →
      u ∈ vis' ∧ vis ⊆ vis' ∧ (∀ x ∈ vis', x ∉ st → Clean adj x)) ∧
    (∀ vs vis stk vis',
      visitList adj fuel vs vis stk = some (false, vis') →
      stk ⊆ vis →
      (∀ x ∈ vis, x ∉ stk → Clean adj x) →
      vis ⊆ vis' ∧ (∀ y ∈ vs, y ∈ vis' ∧ y ∉ stk) ∧
        (∀ x ∈ vis', x ∉ stk → Clean adj x)) := by
  have hstep : ∀ fuel,
      (∀ vs vis stk vis',
        visitList adj fuel vs vis stk = some (false, vis') →
        stk ⊆ vis →
        (∀ x ∈ vis, x ∉ stk → Clean adj x) →
        vis ⊆ vis' ∧ (∀ y ∈ vs, y ∈ vis' ∧ y ∉ stk) ∧
          (∀ x ∈ vis', x ∉ stk → Clean adj x)) →
      (∀ u vis st vis',
        visit adj (fuel + 1) u vis st = some (false, vis') →
        st ⊆ vis → u ∉ vis →
        (∀ x ∈ vis, x ∉ st → Clean adj x) →
        u ∈ vis' ∧ vis ⊆ vis' ∧ (∀ x ∈ vis', x ∉ st → Clean adj x)) := by
    intro fuel ihl u vis st vis' h hstv hu hcb
    simp only [visit] at h
    have hustk : u ∈ saddL st u := (mem_saddL st u u).mpr (Or.inl rfl)
    obtain ⟨hsub, hys, hcb'⟩ :=
      ihl (adj u) (saddL vis u) (saddL st u) vis' h
        (fun x hx => by
          rcases (mem_saddL st u x).mp hx with rfl | hx'
          · exact (mem_saddL vis x x).mpr (Or.inl rfl)
          · exact subset_saddL vis u (hstv hx'))
        (fun x hx hxs => by
          rcases (mem_saddL vis u x).mp hx with rfl | hx'
          · exact absurd hustk hxs
          · exact hcb x hx' (fun hmem => hxs ((mem_saddL st u x).mpr (Or.inr hmem))))
    have hcleanu : Clean adj u := by
      rintro ⟨c, hrc, hcyc⟩
      rcases reaches_head hrc with rfl | ⟨y, hy, hyc⟩
      · obtain ⟨b, hb, hbu⟩ := hcyc
        exact hcb' b (hys b hb).1 (hys b hb).2 ⟨u, hbu, ⟨b, hb, hbu⟩⟩
      · exact hcb' y (hys y hy).1 (hys y hy).2 ⟨c, hyc, hcyc⟩
    refine ⟨hsub ((mem_saddL vis u u).mpr (Or.inl rfl)),
      (subset_saddL vis u).trans hsub, ?_⟩
    intro x hx hxst
    by_cases hxu : x = u
    · rw [hxu]
      exact hcleanu
    · exact hcb' x hx
        (fun hmem => by
          rcases (mem_saddL st u x).mp hmem with rfl | hx'
          · exact hxu rfl
          · exact hxst hx')
  intro fuel
  induction fuel with
  | zero =>
    have hl : ∀ vs vis stk vis',
        visitList adj 0 vs vis stk = some (false, vis') →
        stk ⊆ vis →
        (∀ x ∈ vis, x ∉ stk → Clean adj x) →
        vis ⊆ vis' ∧ (∀ y ∈ vs, y ∈ vis' ∧ y ∉ stk) ∧
          (∀ x ∈ vis', x ∉ stk → Clean adj x) := by
      intro vs
      induction vs with
      | nil =>
        intro vis stk vis' h hsv hcb
        simp only [visitList, Option.some.injEq, Prod.mk.injEq] at h
        rw [← h.2]
        exact ⟨fun x hx => hx, fun y hy => absurd hy (List.not_mem_nil y), hcb⟩
      | cons v vs ih =>
        intro vis stk vis' h hsv hcb
        simp only [visitList] at h
        by_cases hvin : v ∈ vis
        · rw [if_pos hvin] at h
          by_cases hstkv : v ∈ stk
          · rw [if_pos hstkv] at h
            simp at h
          · rw [if_neg hstkv] at h
            obtain ⟨h1, h2, h3⟩ := ih vis stk vis' h hsv hcb
            refine ⟨h1, ?_, h3⟩
            intro y hy
            rcases List.mem_cons.mp hy with rfl | hy'
            · exact ⟨h1 hvin, hstkv⟩
            · exact h2 y hy'
        · rw [if_neg hvin] at h
          simp [visit] at h
    refine ⟨fun u vis st vis' h => absurd h (by simp [visit]), hl⟩
  | succ n ihn =>
    have hv := hstep n ihn.2
    refine ⟨hv, ?_⟩
    intro vs
    induction vs with
    | nil =>
      intro vis stk vis' h hsv hcb
      simp only [visitList, Option.some.injEq, Prod.mk.injEq] at h
      rw [← h.2]
      exact ⟨fun x hx => hx, fun y hy => absurd hy (List.not_mem_nil y), hcb⟩
    | cons v vs ih =>
      intro vis stk vis' h hsv hcb
      simp only [visitList] at h
      by_cases hvin : v ∈ vis
      · rw [if_pos hvin] at h
        by_cases hstkv : v ∈ stk
        · rw [if_pos hstkv] at h
          simp at h
        · rw [if_neg hstkv] at h
          obtain ⟨h1, h2, h3⟩ := ih vis stk vis' h hsv hcb
          refine ⟨h1, ?_, h3⟩
          intro y hy
          rcases List.mem_cons.mp hy with rfl | hy'
          · exact ⟨h1 hvin, hstkv⟩
          · exact h2 y hy'
      · rw [if_neg hvin] at h
        cases hv0 : visit adj (n + 1) v vis stk with
        | none =>
          rw [hv0] at h
          cases h
        | some p =>
          obtain ⟨b0, vis''⟩ := p
          rw [hv0] at h
          cases b0 with
          | true =>
            simp at h
          | false =>
            dsimp only at h
            obtain ⟨hvmem, hvsub, hcb''⟩ := hv v vis stk vis'' hv0 hsv hvin hcb
            obtain ⟨h1, h2, h3⟩ :=
              ih vis'' stk vis' h (fun x hx => hvsub (hsv hx)) hcb''
            refine ⟨hvsub.trans h1, ?_, h3⟩
            intro y hy
            rcases List.mem_cons.mp hy with rfl | hy'
            · exact ⟨h1 hvmem, fun hmem => hvin (hsv hmem)⟩
            · exact h2 y hy'

/-- Successor keys stay inside the key universe. -/
theorem nextKeys_mem_keyUniverse (g : ExecutionGraph) :
    ∀ x, ∀ y ∈ nextKeys g x, y ∈ keyUniverse g := by
  intro x y hy
  unfold nextKeys at hy
  cases hn : g.node? x with
  | none =>
    rw [hn] at hy
    cases hy
  | some n =>
    rw [hn] at hy
    unfold ExecutionGraph.node? at hn
    cases hf : g.all_nodes.find? (fun p => p.1 = x) with
    | none =>
      rw [hf] at hn
      cases hn
    | some p =>
      rw [hf] at hn
      have hp : p ∈ g.all_nodes := List.mem_of_find?_eq_some hf
      have hpn : p.2 = n := by
        simpa using hn
      have hyj : y ∈ (g.all_nodes.map (fun q => q.2.next_nodes)).join :=
        List.mem_join.mpr ⟨p.2.next_nodes,
          List.mem_map_of_mem (fun q => q.2.next_nodes) hp, by rw [hpn]; exact hy⟩
      exact List.mem_append_right _ hyj

/-- Start keys are in the key universe. -/
theorem start_mem_keyUniverse (g : ExecutionGraph) :
    ∀ s ∈ g.start_nodes, s ∈ keyUniverse g := by
  intro s hs
  exact List.mem_append_left _ (List.mem_append_left _ hs)

/-- The start-node loop cannot run out of fuel. -/
theorem dcLoop_ne_none (adj : String → List String) (U : List String)
    (hadj : ∀ x, ∀ y ∈ adj x, y ∈ U) (fuel : Nat) :
    ∀ ss vis, (∀ s ∈ ss, s ∈ U) →
      (U.filter (fun x => decide (x ∉ vis))).length ≤ fuel →
      dcLoop adj fuel ss vis ≠ none := by
  intro ss
  induction ss with
  | nil =>
    intro vis h1 h2
    simp [dcLoop]
  | cons s ss ih =>
    intro vis hss hc
    simp only [dcLoop]
    by_cases hsv : s ∈ vis
    · rw [if_pos hsv]
      exact ih vis (fun x hx => hss x (List.mem_cons_of_mem _ hx)) hc
    · rw [if_neg hsv]
      cases hv0 : visit adj fuel s vis [] with
      | none =>
        exact absurd hv0
          ((dfs_fuel adj U hadj fuel).1 s vis [] (hss s (List.mem_cons_self _ _)) hsv hc)
      | some p =>
        obtain ⟨b0, vis'⟩ := p
        cases b0 with
        | true => simp
        | false =>
          dsimp only
          exact ih vis' (fun x hx => hss x (List.mem_cons_of_mem _ hx))
            (le_trans
              (length_filter_not_mem_mono U vis vis'
                ((dfs_mono adj fuel).1 s vis [] false vis' hv0))
              hc)

/-- A `true` answer of the start-node loop exhibits a cycle reachable from
one of the start keys. -/
theorem dcLoop_true_cycle (adj : String → List String) (fuel : Nat) :
    ∀ ss vis, dcLoop adj fuel ss vis = some true →
      ∃ s ∈ ss, ∃ c, Reaches adj s c ∧ CycleAt adj c := by
  intro ss
  induction ss with
  | nil =>
    intro vis h
    simp [dcLoop] at h
  | cons s ss ih =>
    intro vis h
    simp only [dcLoop] at h
    by_cases hsv : s ∈ vis
    · rw [if_pos hsv] at h
      obtain ⟨s', hs', hc⟩ := ih vis h
      exact ⟨s', List.mem_cons_of_mem _ hs', hc⟩
    · rw [if_neg hsv] at h
      cases hv0 : visit adj fuel s vis [] with
      | none =>
        rw [hv0] at h
        cases h
      | some p =>
        obtain ⟨b0, vis'⟩ := p
        rw [hv0] at h
        cases b0 with
        | true =>
          obtain ⟨c, hrc, hcyc⟩ :=
            (dfs_true_cycle adj s fuel).1 s vis [] vis' hv0
              (fun x hx => absurd hx (List.not_mem_nil x))
              (Reaches.refl s)
              (fun x hx => absurd hx (List.not_mem_nil x))
          exact ⟨s, List.mem_cons_self _ _, c, hrc, hcyc⟩
        | false =>
          dsimp only at h
          obtain ⟨s', hs', hc⟩ := ih vis' h
          exact ⟨s', List.mem_cons_of_mem _ hs', hc⟩

/-- A `false` answer of the start-node loop certifies every start key
clean: no cycle is reachable from any of them. -/
theorem dcLoop_false_clean (adj : String → List String) (fuel : Nat) :
    ∀ ss vis, dcLoop adj fuel ss vis = some false →
      (∀ x ∈ vis, Clean adj x) → ∀ s ∈ ss, Clean adj s := by
  intro ss
  induction ss with
  | nil =>
    intro vis h hcl s hs
    cases hs
  | cons s ss ih =>
    intro vis h hcl t ht
    simp only [dcLoop] at h
    by_cases hsv : s ∈ vis
    · rw [if_pos hsv] at h
      rcases List.mem_cons.mp ht with rfl | ht'
      · exact hcl t hsv
      · exact ih vis h hcl t ht'
    · rw [if_neg hsv] at h
      cases hv0 : visit adj fuel s vis [] with
      | none =>
        rw [hv0] at h
        cases h
      | some p =>
        obtain ⟨b0, vis'⟩ := p
        rw [hv0] at h
        cases b0 with
        | true => simp at h
        | false =>
          dsimp only at h
          obtain ⟨hsmem, hsub, hcb⟩ :=
            (dfs_false_clean adj fuel).1 s vis [] vis' hv0
              (fun x hx => absurd hx (List.not_mem_nil x)) hsv
              (fun x hx _ => hcl x hx)
          have hcl' : ∀ x ∈ vis', Clean adj x :=
            fun x hx => hcb x hx (List.not_mem_nil x)
          rcases List.mem_cons.mp ht with rfl | ht'
          · exact hcl' t hsmem
          · exact ih vis' h hcl' t ht'

/-- `_detect_cycles` decides reachable-cycle existence: it raises exactly
the circular-dependency error when a start node reaches a cycle, and
returns normally otherwise. -/
theorem detectCycles_cases (g : ExecutionGraph) :
    (detectCycles g = .ok () ∧ ¬HasReachableCycle g) ∨
    (detectCycles g = .error "Circular dependency detected" ∧
      HasReachableCycle g) := by
  have hcount :
      ((keyUniverse g).filter (fun x => decide (x ∉ ([] : List String)))).length ≤
        (keyUniverse g).length + 1 := by
    rw [filter_not_mem_nil]
    exact Nat.le_succ _
  have hne :=
    dcLoop_ne_none (nextKeys g) (keyUniverse g) (nextKeys_mem_keyUniverse g)
      ((keyUniverse g).length + 1) g.start_nodes []
      (start_mem_keyUniverse g) hcount
  unfold detectCycles
  cases hdc : dcLoop (nextKeys g) ((keyUniverse g).length + 1) g.start_nodes [] with
  | none => exact absurd hdc hne
  | some b =>
    cases b with
    | true =>
      right
      obtain ⟨s, hs, c, hrc, hcyc⟩ := dcLoop_true_cycle _ _ _ _ hdc
      exact ⟨rfl, s, hs, c, hrc, hcyc⟩
    | false =>
      left
      refine ⟨rfl, ?_⟩
      rintro ⟨s, hs, c, hrc, hcyc⟩
      exact dcLoop_false_clean _ _ _ _ hdc
        (fun x hx => absurd hx (List.not_mem_nil x)) s hs ⟨c, hrc, hcyc⟩

/-- **C7**: for a blueprint that passes connection-target validation,
`parse_json` raises when the built node map has no dependency-free node
("No start nodes found") or when the built graph has a cycle reachable
from a start node ("Circular dependency detected"), and accepts — returning
exactly the built graph — whenever the graph is acyclic (cycle detection is
sound and complete in this sense). -/
theorem C7_cycle_detection (schema : BlueprintSchema)
    (hval : validateConnections schema = .ok ()) :
    (((buildMap schema).map Prod.snd).filter (fun n => n.dependencies = []) = [] →
      parse_json schema = .error "No start nodes found") ∧
    (∀ g, buildGraph schema = .ok g → HasReachableCycle g →
      parse_json schema = .error "Circular dependency detected") ∧
    (∀ g, buildGraph schema = .ok g → (∀ c, ¬CycleAt (nextKeys g) c) →
      parse_json schema = .ok g) := by
  refine ⟨?_, ?_, ?_⟩
  · intro hstart
    have hbg : buildGraph schema = .error "No start nodes found" := by
      unfold buildGraph
      rw [if_pos hstart]
    unfold parse_json
    rw [hval]
    dsimp only
    rw [hbg]
  · intro g hg hcyc
    have herr : detectCycles g = .error "Circular dependency detected" := by
      rcases detectCycles_cases g with ⟨h1, h2⟩ | ⟨h1, h2⟩
      · exact absurd hcyc h2
      · exact h1
    unfold parse_json
    rw [hval]
    dsimp only
    rw [hg]
    dsimp only
    rw [herr]
  · intro g hg hacyc
    have hok : detectCycles g = .ok () := by
      rcases detectCycles_cases g with ⟨h1, h2⟩ | ⟨h1, h2⟩
      · exact h1
      · obtain ⟨s, hs, c, hrc, hcyc⟩ := h2
        exact absurd hcyc (hacyc c)
    unfold parse_json
    rw [hval]
    dsimp only
    rw [hg]
    dsimp only
    rw [hok]

/-- Witness for C7: the acyclic two-node blueprint parses to its graph. -/
theorem C7_cycle_detection_witness : parse_json c7Schema = .ok c7Graph := by
  refine (C7_cycle_detection c7Schema (by decide)).2.2 c7Graph (by decide) ?_
  have hA : nextKeys c7Graph "A:op" = ["B:op"] := by decide
  have hB : nextKeys c7Graph "B:op" = [] := by decide
  have hother : ∀ k, ¬k = "A:op" → ¬k = "B:op" → nextKeys c7Graph k = [] := by
    intro k h1 h2
    have h1' : ¬("A:op" = k) := fun h => h1 h.symm
    have h2' : ¬("B:op" = k) := fun h => h2 h.symm
    simp [nextKeys, ExecutionGraph.node?, c7Graph, List.find?, h1', h2']
  have hBreach : ∀ x, Reaches (nextKeys c7Graph) "B:op" x → x = "B:op" := by
    intro x hx
    induction hx with
    | refl => rfl
    | tail hab hc ih =>
      rw [ih, hB] at hc
      cases hc
  intro c hcyc
  obtain ⟨b, hb, hr⟩ := hcyc
  by_cases hcA : c = "A:op"
  · rw [hcA, hA] at hb
    have hbB : b = "B:op" := List.mem_singleton.mp hb
    rw [hbB, hcA] at hr
    have := hBreach _ hr
    exact absurd this (by decide)
  · by_cases hcB : c = "B:op"
    · rw [hcB, hB] at hb
      cases hb
    · rw [hother c hcA hcB] at hb
      cases hb

end Orchestrator

